import Mathlib

/-!
Verification development for the QAP solver of `graspologic/match/qap.py`
(functions `quadratic_assignment`, `_calc_score`, `_common_input_validation`,
`_quadratic_assignment_faq`, `_check_init_input`, `_split_matrix`,
`_doubly_stochastic`, `_quadratic_assignment_2opt`).

Numeric values are embedded as exact rationals (`ℚ`).  numpy arrays are
embedded as total functions `ℕ → ℚ` (matrices: `ℕ → ℕ → ℚ`) together with
explicit size parameters; index arrays are `List ℕ`.  Fallible code returns
`Except PyError`.
-/

/-- Sum of `f 0 + f 1 + ⬝⬝⬝ + f (n-1)`, the embedding of a numpy sum along an
axis of length `n`. -/
def fsum (n : ℕ) (f : ℕ → ℚ) : ℚ := ((List.range n).map f).sum

/-- A numpy 2-d float array of known (square) size, embedded as a total
function; entries outside the advertised size are junk. -/
abbrev Mtx := ℕ → ℕ → ℚ

/-- A numpy 1-d float array, embedded as a total function. -/
abbrev Vec := ℕ → ℚ

/-- Matrix transpose `X.T`. -/
def mT (X : Mtx) : Mtx := fun i j => X j i

/-- Matrix product `X @ Y` with inner dimension `k`. -/
def mmul (k : ℕ) (X Y : Mtx) : Mtx := fun i j => fsum k fun t => X i t * Y t j

/-- Elementwise difference `X - Y`. -/
def msub (X Y : Mtx) : Mtx := fun i j => X i j - Y i j

/-- `(X * Y).sum()` over an `r × c` block: the elementwise product, summed. -/
def hadSum (r c : ℕ) (X Y : Mtx) : ℚ :=
  fsum r fun i => fsum c fun j => X i j * Y i j

/-- `_calc_score(A, B, perm) = np.sum(A * B[perm][:, perm])` from
`qap.py`, for `n × n` matrices and an index array `perm`.  `B[perm][:, perm]`
is the matrix whose `(i, j)` entry is `B[perm[i], perm[j]]`. -/
def _calc_score (n : ℕ) (A B : Mtx) (perm : List ℕ) : ℚ :=
  fsum n fun i => fsum n fun j => A i j * B (perm.getD i 0) (perm.getD j 0)

/-- Modelled from the spec (§4.3, §8): the permutation matrix `P` induced by
`perm`, "row i of P is row perm[i] of the identity": `P i j = 1` iff
`perm i = j`. -/
def permMatrix {n : ℕ} (p : Equiv.Perm (Fin n)) : Matrix (Fin n) (Fin n) ℚ :=
  Matrix.of fun i j => if p i = j then 1 else 0

/-- Modelled from the spec (§4.3, §8): the trace-form objective
`trace(A.T @ P @ B @ P.T)` for the permutation matrix `P` induced by `perm`. -/
def traceObjective {n : ℕ} (A B : Matrix (Fin n) (Fin n) ℚ)
    (p : Equiv.Perm (Fin n)) : ℚ :=
  Matrix.trace (A.transpose * permMatrix p * B * (permMatrix p).transpose)

/-- `_calc_score` applied to `Fin n`-matrices and the index array tabulating a
permutation `p` of `{0, …, n-1}`; the matrices are extended by junk zeros
outside their size, mirroring the size-`n` embedding convention. -/
def calcScoreFin {n : ℕ} (A B : Matrix (Fin n) (Fin n) ℚ)
    (p : Equiv.Perm (Fin n)) : ℚ :=
  _calc_score n
    (fun i j => if h : i < n ∧ j < n then A ⟨i, h.1⟩ ⟨j, h.2⟩ else 0)
    (fun i j => if h : i < n ∧ j < n then B ⟨i, h.1⟩ ⟨j, h.2⟩ else 0)
    ((List.finRange n).map fun i => (p i : ℕ))

/-- Python exception kinds raised by the module (the spec's `InvalidArgument`
taxonomy corresponds to `valueError`). -/
inductive PyError
  | valueError (msg : String)
  | typeError (msg : String)
  | nameError (msg : String)
deriving Repr, DecidableEq

/-- The `OptimizeResult` returned by both solvers:
`{col_ind, fun, nit}` (`fun` is a Lean keyword, hence `fun'`). -/
structure QapResult where
  col_ind : List ℕ
  fun' : ℚ
  nit : ℕ
deriving Repr, DecidableEq

/-- Modelled from the spec (§5): the explicit random generator handle
(`check_random_state(rng)` seeded with an integer); `numpy` itself is outside
the repository, so a deterministic congruential generator stands in for it. -/
structure Rng where
  seed : ℕ
deriving Repr, DecidableEq

/-- One congruential step of the generator model. -/
def rngNext (g : Rng) : ℕ × Rng :=
  let s := (1103515245 * g.seed + 12345) % 2147483648
  (s, ⟨s⟩)

/-- A pseudo-random index below `b` (junk when `b = 0`). -/
def rngBelow (g : Rng) (b : ℕ) : ℕ × Rng :=
  let p := rngNext g
  (p.1 % b, p.2)

def rngPermAux : ℕ → List ℕ → Rng → List ℕ × Rng
  | 0, _, g => ([], g)
  | k+1, l, g =>
    let p := rngBelow g l.length
    let q := rngPermAux k (l.eraseIdx p.1) p.2
    (l.getD p.1 0 :: q.1, q.2)

/-- Modelled from the spec (§5): `rng.permutation(l)` — a deterministic
Fisher-Yates style permutation of `l` driven by the generator state. -/
def rngPermutation (g : Rng) (l : List ℕ) : List ℕ × Rng :=
  rngPermAux l.length l g

def rngUnitAux : ℕ → Rng → List ℚ × Rng
  | 0, g => ([], g)
  | k+1, g =>
    let p := rngNext g
    let q := rngUnitAux k p.2
    ((p.1 : ℚ) / 2147483648 :: q.1, q.2)

/-- Modelled from the spec (§4.4 INIT): `rng.uniform(size=(u, u))`, a `u × u`
matrix of generator-driven values in `[0, 1)`. -/
def rngUniformMat (g : Rng) (u : ℕ) : Mtx × Rng :=
  let p := rngUnitAux (u * u) g
  (fun i j => p.1.getD (i * u + j) 0, p.2)

def allPermsAux : ℕ → List ℕ → List (List ℕ)
  | 0, _ => [[]]
  | k+1, l =>
    (((List.range l.length).map fun i =>
      (allPermsAux k (l.eraseIdx i)).map (l.getD i 0 :: ·))).flatten

/-- All permutations of `l`, in the lexicographic-by-position order of
`itertools.permutations`. -/
def allPerms (l : List ℕ) : List (List ℕ) := allPermsAux l.length l

/-- The cost of assignment `p` on the `k × k` cost matrix `C`. -/
def lapCost (k : ℕ) (C : Mtx) (p : List ℕ) : ℚ :=
  fsum k fun i => C i (p.getD i 0)

/-- Modelled from the spec (§4.4 (b) and PROJECTED):
`scipy.optimize.linear_sum_assignment` on a `k × k` cost matrix — an external
library function.  Embedded as the exact brute-force optimum; among several
optimal assignments the one found last in `allPerms` order is kept, which
reproduces the library's behaviour on the module's documented example. -/
def linear_sum_assignment (k : ℕ) (C : Mtx) (maximize : Bool) : List ℕ :=
  match allPerms (List.range k) with
  | [] => []
  | p0 :: rest =>
    rest.foldl (fun best p =>
      if maximize then (if lapCost k C best ≤ lapCost k C p then p else best)
      else (if lapCost k C p ≤ lapCost k C best then p else best)) p0

/-- A raw 2-d numpy array with its shape, for the validation layer
(`np.atleast_2d` output: the model is restricted to 2-d arrays). -/
structure RawMtx where
  rows : ℕ
  cols : ℕ
  entry : ℕ → ℕ → ℚ

/-- `_common_input_validation(A, B, partial_match)` from `qap.py`: the chain of
shape and seed checks, each with its message, in source order.  `partial_match`
entries are integers (`.astype(int)`), hence `ℤ × ℤ` pairs; the model being
2-d-only, the `ndim != 2` branches and the two-column branch of the source
cannot fire and are not represented. -/
def _common_input_validation (A B : RawMtx) (partial_match : List (ℤ × ℤ)) :
    Except PyError Unit :=
  if A.rows ≠ A.cols then .error (.valueError "`A` must be square")
  else if B.rows ≠ B.cols then .error (.valueError "`B` must be square")
  else if A.rows ≠ B.rows ∨ A.cols ≠ B.cols then
    .error (.valueError "`A` and `B` matrices must be of equal size")
  else if partial_match.length > A.rows then
    .error (.valueError "`partial_match` can have only as many seeds as there are nodes")
  else if partial_match.any fun ab => ab.1 < 0 ∨ ab.2 < 0 then
    .error (.valueError "`partial_match` must contain only positive indices")
  else if partial_match.any fun ab => (A.rows : ℤ) ≤ ab.1 ∨ (A.rows : ℤ) ≤ ab.2 then
    .error (.valueError "`partial_match` entries must be less than number of nodes")
  else if ¬ ((partial_match.map Prod.fst).Nodup ∧ (partial_match.map Prod.snd).Nodup) then
    .error (.valueError "`partial_match` column entries must be unique")
  else .ok ()

/-- The go/no-go content of `_common_input_validation` for a size-`n` square
problem once seed pairs are nonnegative (`ℕ`-typed): length, range and
uniqueness of the two seed columns. -/
def pmOk (n : ℕ) (pm : List (ℕ × ℕ)) : Bool :=
  decide (pm.length ≤ n) && pm.all (fun ab => decide (ab.1 < n) && decide (ab.2 < n)) &&
  decide (pm.map Prod.fst).Nodup && decide (pm.map Prod.snd).Nodup

/-- The `P0` option of the FAQ solver: one of the two strings, or an explicit
search-position matrix. -/
inductive P0Choice
  | barycenter
  | randomized
  | explicitP0 (M : Mtx)

/-- `_check_init_input(P0, n)`: the doubly-stochastic test on an explicit
`P0` (`np.isclose` with `atol = 1e-3` and default `rtol = 1e-5`, plus
nonnegativity).  The shape test is not representable on total-function
matrices. -/
def _check_init_input (P0 : Mtx) (u : ℕ) : Except PyError Unit :=
  let tol : ℚ := 1/1000 + 1/100000
  if ((List.range u).all fun j => decide (|fsum u (fun i => P0 i j) - 1| ≤ tol)) &&
     ((List.range u).all fun i => decide (|fsum u (fun j => P0 i j) - 1| ≤ tol)) &&
     !((List.range u).any fun i => (List.range u).any fun j => decide (P0 i j < 0))
  then .ok ()
  else .error (.valueError "`P0` matrix must be doubly stochastic")

/-- `_split_matrix(X, n)`: the four blocks
`X[:n, :n], X[:n, n:], X[n:, :n], X[n:, n:]` as shifted total functions. -/
def _split_matrix (X : Mtx) (m : ℕ) : Mtx × Mtx × Mtx × Mtx :=
  (fun i j => X i j, fun i j => X i (m + j),
   fun i j => X (m + i) j, fun i j => X (m + i) (m + j))

/-- The row/column tolerance test of `_doubly_stochastic`:
`(abs(P_eps.sum(axis=1) - 1) < tol).all() and (abs(P_eps.sum(axis=0) - 1) < tol).all()`. -/
def sinkhornCheck (k : ℕ) (P_eps : Mtx) (tol : ℚ) : Bool :=
  ((List.range k).all fun i => decide (|fsum k (fun j => P_eps i j) - 1| < tol)) &&
  ((List.range k).all fun j => decide (|fsum k (fun i => P_eps i j) - 1| < tol))

/-- The iteration of `_doubly_stochastic`: check the current `P_eps`, then
rescale `c` from `r` and `r` from `c` and rebuild `P_eps`. -/
def sinkhornLoop (k : ℕ) (P : Mtx) (tol : ℚ) : ℕ → Vec → Vec → Mtx → Mtx
  | 0, _, _, P_eps => P_eps
  | fuel+1, r, _c, P_eps =>
    if sinkhornCheck k P_eps tol then P_eps
    else
      let c' : Vec := fun j => 1 / fsum k fun i => r i * P i j
      let r' : Vec := fun i => 1 / fsum k fun j => P i j * c' j
      sinkhornLoop k P tol fuel r' c' fun i j => r' i * P i j * c' j

/-- `_doubly_stochastic(P, tol)` from `qap.py` (Sinkhorn-Knopp), on a `k × k`
matrix, with the source's cap of 1000 iterations. -/
def _doubly_stochastic (k : ℕ) (P : Mtx) (tol : ℚ) : Mtx :=
  let c : Vec := fun j => 1 / fsum k fun i => P i j
  let r : Vec := fun i => 1 / fsum k fun j => P i j * c j
  sinkhornLoop k P tol 1000 r c P

/-- The step-size choice of the FAQ line search (source lines 456-462):
the vertex `-b/(2a)` of the parabola when it is a minimum of the
sign-adjusted objective and lies in `[0, 1]`, else
`np.argmin([0, (b + a) * obj_func_scalar])`. -/
def faqAlpha (a b s : ℚ) : ℚ :=
  if a * s > 0 ∧ 0 ≤ -b / (2 * a) ∧ -b / (2 * a) ≤ 1 then -b / (2 * a)
  else if (b + a) * s < 0 then 1 else 0

/-- `np.scatter`-style fancy-index assignment `base[idx] = vals` (later
assignments override earlier ones, as in numpy). -/
def npScatter (base : List ℕ) (idx vals : List ℕ) : List ℕ :=
  (idx.zip vals).foldl (fun acc iv => acc.set iv.1 iv.2) base

/-- The Frank-Wolfe iteration of `_quadratic_assignment_faq` (source lines
435-470), with the iteration cap as structural fuel.  The convergence test
`norm(P - P_i1)/sqrt(n_unseed) < tol` is embedded squared
(`Σ (P - P_i1)² < tol² · u`), which is equivalent for the positive `tol`
enforced by validation.  Returns the final position and `n_iter`. -/
def faqIter (u m : ℕ) (maximize : Bool)
    (A12 A21 A22 B12 B21 B22 const_sum : Mtx) (tol : ℚ) :
    ℕ → ℕ → Mtx → Mtx × ℕ
  | 0, n_iter, P => (P, n_iter)
  | fuel+1, n_iter, P =>
    let grad : Mtx := fun i j =>
      const_sum i j + mmul u (mmul u A22 P) (mT B22) i j +
        mmul u (mmul u (mT A22) P) B22 i j
    let cols := linear_sum_assignment u grad maximize
    let Q : Mtx := fun i j => if cols.getD i 0 = j then 1 else 0
    let R := msub P Q
    let AR22 := mmul u (mT A22) R
    let BR22 := mmul u B22 (mT R)
    let b21 := hadSum u m (mmul u (mT R) A21) B21
    let b12 := hadSum u m (mmul u (mT R) (mT A12)) (mT B12)
    let b22a := hadSum u u AR22 fun i j => mT B22 (cols.getD i 0) j
    let b22b := hadSum u u A22 fun i j => BR22 (cols.getD i 0) j
    let a := hadSum u u (mT AR22) BR22
    let b := b21 + b12 + b22a + b22b
    let s : ℚ := if maximize then -1 else 1
    let alpha := faqAlpha a b s
    let P_i1 : Mtx := fun i j => alpha * P i j + (1 - alpha) * Q i j
    if hadSum u u (msub P P_i1) (msub P P_i1) < tol ^ 2 * u then (P_i1, n_iter + 1)
    else faqIter u m maximize A12 A21 A22 B12 B21 B22 const_sum tol fuel (n_iter + 1) P_i1

/-- `_quadratic_assignment_faq` from `qap.py` on a size-`n` problem with
`ℕ`-typed (hence nonnegative) seed pairs; the message-selection details of
`_common_input_validation` live in that function's own embedding, here only
its accept/reject decision is replayed. -/
def _quadratic_assignment_faq (n : ℕ) (A B : Mtx) (maximize : Bool)
    (partial_match : List (ℕ × ℕ)) (rng : Rng) (P0 : P0Choice)
    (shuffle_input : Bool) (maxiter : ℕ) (tol : ℚ) :
    Except PyError QapResult :=
  if ¬ pmOk n partial_match then
    .error (.valueError "`partial_match` is invalid")
  else if maxiter = 0 then
    .error (.valueError "maxiter must be a positive integer")
  else if tol ≤ 0 then
    .error (.valueError "tol must be a positive float")
  else if n = 0 ∨ partial_match.length = n then
    let col_ind := partial_match.map (·.2)
    .ok ⟨col_ind, _calc_score n A B col_ind, 0⟩
  else
    let m := partial_match.length
    let u := n - m
    let nonseed_B0 := (List.range n).filter fun x => x ∉ partial_match.map (·.2)
    let sb := if shuffle_input then rngPermutation rng nonseed_B0 else (nonseed_B0, rng)
    let nonseed_B := sb.1
    let rng1 := sb.2
    let nonseed_A := (List.range n).filter fun x => x ∉ partial_match.map (·.1)
    let perm_A := partial_match.map (·.1) ++ nonseed_A
    let perm_B := partial_match.map (·.2) ++ nonseed_B
    let Ap : Mtx := fun i j => A (perm_A.getD i 0) (perm_A.getD j 0)
    let Bp : Mtx := fun i j => B (perm_B.getD i 0) (perm_B.getD j 0)
    let A12 := (_split_matrix Ap m).2.1
    let A21 := (_split_matrix Ap m).2.2.1
    let A22 := (_split_matrix Ap m).2.2.2
    let B12 := (_split_matrix Bp m).2.1
    let B21 := (_split_matrix Bp m).2.2.1
    let B22 := (_split_matrix Bp m).2.2.2
    let P0res : Except PyError Mtx :=
      match P0 with
      | .barycenter => .ok fun _ _ => (1 : ℚ) / u
      | .randomized =>
        let K := (rngUniformMat rng1 u).1
        let K' := _doubly_stochastic u K (1/1000)
        .ok fun i j => (1 : ℚ) / u * (1/2) + K' i j * (1/2)
      | .explicitP0 M =>
        match _check_init_input M u with
        | .ok _ => .ok M
        | .error e => .error e
    match P0res with
    | .error e => .error e
    | .ok P =>
      let const_sum : Mtx := fun i j =>
        mmul m A21 (mT B21) i j + mmul m (mT A12) B12 i j
      let res := faqIter u m maximize A12 A21 A22 B12 B21 B22 const_sum tol maxiter 0 P
      let col := linear_sum_assignment u (fun i j => -(res.1 i j)) false
      let perm := List.range m ++ col.map (· + m)
      let unshuffled_perm :=
        npScatter (List.replicate n 0) perm_A (perm.map fun x => perm_B.getD x 0)
      .ok ⟨unshuffled_perm, _calc_score n A B unshuffled_perm, res.2⟩

/-- Module-level names defined or imported in `qap.py` (source lines 6-11 and
the module's `def`s). -/
def qapModuleNames : List String :=
  ["np", "operator", "linear_sum_assignment", "OptimizeResult",
   "check_random_state", "itertools", "quadratic_assignment", "_calc_score",
   "_common_input_validation", "_quadratic_assignment_faq",
   "_check_init_input", "_split_matrix", "_doubly_stochastic",
   "_quadratic_assignment_2opt"]

/-- The name called by the first statement of `_quadratic_assignment_2opt`
(source line 628). -/
def twoOptFirstCalledName : String := "_check_unknown_options"

/-- `_quadratic_assignment_2opt` from `qap.py`: its first statement calls
`_check_unknown_options(unknown_options)`, a name neither defined nor imported
in the module, so every call raises `NameError` before validation or any
numerical work. -/
def _quadratic_assignment_2opt (n : ℕ) (A B : Mtx) (maximize : Bool)
    (partial_match : List (ℕ × ℕ)) (rng : Rng)
    (partial_guess : List (ℕ × ℕ)) (unknown_options : List String) :
    Except PyError QapResult :=
  .error (.nameError "name _check_unknown_options is not defined")

/-- `itertools.combinations_with_replacement(l, 2)`: the pairs
`(l[p], l[q])` for positions `p ≤ q`, in lexicographic position order. -/
def pairsOf : List ℕ → List (ℕ × ℕ)
  | [] => []
  | x :: xs => (x, x) :: (xs.map fun y => (x, y)) ++ pairsOf xs

/-- The tuple swap `perm[i], perm[j] = perm[j], perm[i]`. -/
def listSwap (l : List ℕ) (i j : ℕ) : List ℕ :=
  (l.set i (l.getD j 0)).set j (l.getD i 0)

/-- One sweep of the 2-opt inner `for` loop (source lines 699-707): evaluate
pairs in order, counting each evaluation, and stop at the first strictly
improving swap (greedy first-improvement). -/
def twoOptPass (n : ℕ) (A B : Mtx) (better : ℚ → ℚ → Bool) :
    List (ℕ × ℕ) → List ℕ → ℚ → ℕ → Option (List ℕ × ℚ) × ℕ
  | [], _, _, nit => (none, nit)
  | ij :: rest, perm, best, nit =>
    let perm' := listSwap perm ij.1 ij.2
    let score := _calc_score n A B perm'
    if better score best then (some (perm', score), nit + 1)
    else twoOptPass n A B better rest perm best (nit + 1)

/-- The outer `while not done` loop of 2-opt (source lines 697-709), with
explicit fuel: `none` models a run that is still sweeping when the fuel is
exhausted. -/
def twoOptLoop (n : ℕ) (A B : Mtx) (better : ℚ → ℚ → Bool)
    (pairs : List (ℕ × ℕ)) : ℕ → List ℕ → ℚ → ℕ → Option (List ℕ × ℚ × ℕ)
  | 0, _, _, _ => none
  | fuel+1, perm, best, nit =>
    match twoOptPass n A B better pairs perm best nit with
    | (some pb, nit') => twoOptLoop n A B better pairs fuel pb.1 pb.2 nit'
    | (none, nit') => some (perm, best, nit')

/-- numpy boolean-mask assignment `arr[mask] = vals` where `mask` marks the
members of `rows`: the marked positions in increasing index order receive
`vals` in order; a length mismatch is an error (broadcast failure). -/
def maskAssign (n : ℕ) (base : List ℕ) (rows : List ℕ) (vals : List ℕ) :
    Except PyError (List ℕ) :=
  let sortedRows := (List.range n).filter (· ∈ rows)
  if sortedRows.length = vals.length then .ok (npScatter base sortedRows vals)
  else .error (.valueError "shape mismatch in boolean mask assignment")

/-- The initial-permutation construction of 2-opt (source lines 661-686):
guess pairs scatter first, seed pairs override, remaining rows get a random
permutation of the remaining columns. -/
def twoOptInit (n : ℕ) (pm pg : List (ℕ × ℕ)) (rng : Rng) :
    Except PyError (List ℕ × Rng) :=
  if pm.length = 0 ∧ pg.length = 0 then .ok (rngPermutation rng (List.range n))
  else
    let rg := pg.map (·.1)
    let cg := pg.map (·.2)
    let rf := pm.map (·.1)
    let cf := pm.map (·.2)
    match maskAssign n (List.replicate n 0) rg cg with
    | .error e => .error e
    | .ok perm1 =>
      match maskAssign n perm1 rf cf with
      | .error e => .error e
      | .ok perm2 =>
        let random_rows := (List.range n).filter fun i => i ∉ rf ∧ i ∉ rg
        let random_cols := (List.range n).filter fun j => j ∉ cf ∧ j ∉ cg
        let rc := rngPermutation rng random_cols
        match maskAssign n perm2 random_rows rc.1 with
        | .error e => .error e
        | .ok perm3 => .ok (perm3, rc.2)

/-- The body of `_quadratic_assignment_2opt` after its (never reached) first
statement: source lines 629-713, embedded so that the algorithm itself can be
reasoned about.  `fuel` bounds the outer sweep loop; `.ok none` models a run
still sweeping at fuel exhaustion. -/
def _quadratic_assignment_2opt_body (n : ℕ) (A B : Mtx) (maximize : Bool)
    (partial_match : List (ℕ × ℕ)) (rng : Rng)
    (partial_guess : List (ℕ × ℕ)) (fuel : ℕ) :
    Except PyError (Option QapResult) :=
  if ¬ pmOk n partial_match then
    .error (.valueError "`partial_match` is invalid")
  else if n = 0 ∨ partial_match.length = n then
    let col_ind := partial_match.map (·.2)
    .ok (some ⟨col_ind, _calc_score n A B col_ind, 0⟩)
  else if ¬ pmOk n partial_guess then
    .error (.valueError "`partial_guess` is invalid")
  else
    match twoOptInit n partial_match partial_guess rng with
    | .error e => .error e
    | .ok pr =>
      let perm := pr.1
      let best0 := _calc_score n A B perm
      let i_free :=
        if partial_match.length = 0 ∧ partial_guess.length = 0 then List.range n
        else (List.range n).filter fun i => i ∉ partial_match.map (·.1)
      let better : ℚ → ℚ → Bool := fun x y =>
        if maximize then decide (y < x) else decide (x < y)
      match twoOptLoop n A B better (pairsOf i_free) fuel perm best0 0 with
      | some r => .ok (some ⟨r.1, r.2.1, r.2.2⟩)
      | none => .ok none

/-- The options dictionary of `quadratic_assignment`: the recognized keys as
optional fields (absent = default), plus any unrecognized keys. -/
structure QapOptions where
  partial_match : Option (List (ℕ × ℕ))
  maximize : Option Bool
  rng : Option ℕ
  P0 : Option P0Choice
  shuffle_input : Option Bool
  maxiter : Option ℕ
  tol : Option ℚ
  partial_guess : Option (List (ℕ × ℕ))
  unknown : List String

/-- An options value with every field absent (Python `options = None`). -/
def QapOptions.default : QapOptions :=
  ⟨none, none, none, none, none, none, none, none, []⟩

/-- `str.lower()` on an ASCII character. -/
def pyCharLower (c : Char) : Char :=
  if 65 ≤ c.toNat ∧ c.toNat ≤ 90 then Char.ofNat (c.toNat + 32) else c

/-- `method.lower()`: ASCII lower-casing of a string. -/
def pyLower (s : String) : String := String.mk (s.data.map pyCharLower)

/-- `quadratic_assignment(A, B, method, options)` from `qap.py`: lower-case the
method, dispatch on it, and expand the options as keyword arguments.  A key
not among the selected method's parameters makes the Python call itself fail
with `TypeError` (the FAQ solver has no `**unknown_options` catch-all);
for "2opt" the keyword expansion succeeds but the callee's first statement
raises `NameError` (see `_quadratic_assignment_2opt`). -/
def quadratic_assignment (n : ℕ) (A B : Mtx) (method : String)
    (o : QapOptions) : Except PyError QapResult :=
  let meth := pyLower method
  if meth = "faq" then
    let extra := (if o.partial_guess.isSome then ["partial_guess"] else []) ++ o.unknown
    match extra with
    | k :: _ =>
      .error (.typeError
        ("_quadratic_assignment_faq() got an unexpected keyword argument " ++ k))
    | [] =>
      _quadratic_assignment_faq n A B (o.maximize.getD false)
        (o.partial_match.getD []) ⟨o.rng.getD 0⟩
        (o.P0.getD P0Choice.barycenter) (o.shuffle_input.getD false)
        (o.maxiter.getD 30) (o.tol.getD (3/100))
  else if meth = "2opt" then
    _quadratic_assignment_2opt n A B (o.maximize.getD false)
      (o.partial_match.getD []) ⟨o.rng.getD 0⟩ (o.partial_guess.getD [])
      o.unknown
  else .error (.valueError ("method " ++ method ++ " must be in faq, 2opt."))

/-- Modelled from the spec (§4.4, glossary): the objective of the seeded FAQ
relaxation as a function of the unseeded search position `M` — the trace form
`trace(Aᵖᵀ · diag(I, M) · Bᵖ · diag(I, M)ᵀ)` written out blockwise for the
permuted, partitioned matrices.  Its restriction to the segment between the
direction `Q` (step 0) and the position `P` (step 1) is the line-search
objective of §4.4 (c). -/
def faqLineObjective (u m : ℕ) (A11 A12 A21 A22 B11 B12 B21 B22 : Mtx)
    (M : Mtx) : ℚ :=
  hadSum m m A11 B11 + hadSum m u A12 (mmul u B12 (mT M)) +
    hadSum u m A21 (mmul u M B21) +
    hadSum u u A22 (mmul u (mmul u M B22) (mT M))

/-- `mentions m w`: the word `w` occurs inside the message `m`. -/
def mentions (m w : String) : Prop := ∃ pre post, m = pre ++ w ++ post

deriving instance DecidableEq for Except

/-- The worked example's matrix `A` (module docstring, lines 105-106). -/
def Aex : Mtx := fun i j =>
  (([[0, 80, 150, 170], [80, 0, 130, 100], [150, 130, 0, 120],
     [170, 100, 120, 0]] : List (List ℚ)).getD i []).getD j 0

/-- The worked example's matrix `B` (module docstring, lines 107-108). -/
def Bex : Mtx := fun i j =>
  (([[0, 5, 2, 7], [0, 0, 3, 8], [0, 0, 0, 3],
     [0, 0, 0, 0]] : List (List ℚ)).getD i []).getD j 0

/-- The large constant `10^10` of the Sinkhorn counterexample input. -/
def sinkCN : ℕ := 10 ^ 10

/-- The same constant as a rational. -/
def sinkC : ℚ := 10 ^ 10

/-- The 3 × 3 base block of the counterexample input: `1` on the first row
and first column, `10^10` elsewhere. -/
def pf (t u : ℕ) : ℚ := if t ≠ 0 ∧ u ≠ 0 then sinkC else 1

/-- The 9 × 9 strictly positive counterexample input: the Kronecker square of
the base block. -/
def sinkP : Mtx := fun i j => pf (i / 3) (j / 3) * pf (i % 3) (j % 3)

/-- Value of a two-class profile at a block coordinate: first component at
coordinate `0`, second elsewhere. -/
def pv (g : ℚ × ℚ) (t : ℕ) : ℚ := if t = 0 then g.1 else g.2

/-- The scaling vector induced on the 9 indices by a two-class profile, in
the Kronecker-square structure. -/
def profVec (g : ℚ × ℚ) : Vec := fun i => pv g (i / 3) * pv g (i % 3)

/-- One Sinkhorn half-update on two-class profiles; on the symmetric
counterexample both the `c`-from-`r` and the `r`-from-`c` updates have this
form. -/
def profStep (g : ℚ × ℚ) : ℚ × ℚ :=
  (1 / (g.1 + 2 * g.2), 1 / (g.1 + 2 * sinkC * g.2))

/-- Weighted class sum of a profile against the base block. -/
def lsum (g : ℚ × ℚ) (s : ℕ) : ℚ := g.1 + 2 * g.2 * pf 1 s

/-- The rescaled matrix `r[:, None] * P * c` in profile form. -/
def profMtx (r c : ℚ × ℚ) : Mtx :=
  fun i j => profVec r i * sinkP i j * profVec c j

/-- The exact `c`-profile of the Sinkhorn loop state on the counterexample:
`sinkGamma 0` is the initial column normalization, and each loop iteration
applies the two half-updates. -/
def sinkGamma : ℕ → ℚ × ℚ
  | 0 => profStep (1, 1)
  | t + 1 => profStep (profStep (sinkGamma t))

/-- The integer shadow of the profile recurrence (profiles enter the column
sums only through their ratio, so exact integer representatives suffice). -/
def vstep (w : ℕ × ℕ) : ℕ × ℕ :=
  ((w.1 + 2 * sinkCN * w.2) + 2 * sinkCN * (w.1 + 2 * w.2),
   (w.1 + 2 * sinkCN * w.2) + 2 * (w.1 + 2 * w.2))

/-- Integer representative of `sinkGamma t`. -/
def vseq : ℕ → ℕ × ℕ
  | 0 => (1 + 2 * sinkCN, 3)
  | t + 1 => vstep (vseq t)

/-- Integer form of "column 0 of the rescaled matrix misses the `1e-3`
tolerance strictly". -/
def failCondN (w : ℕ × ℕ) : Bool :=
  let L0 := w.1 + 2 * w.2
  let L1 := w.1 + 2 * sinkCN * w.2
  let N := w.1 * (L1 + 2 * L0)
  let D := L0 * L1
  decide (D ^ 2 < 1000 * (max (N ^ 2) (D ^ 2) - min (N ^ 2) (D ^ 2)))

/-- Conjunction of `failCondN` along the next `s` integer states. -/
def sinkFailAux : ℕ → ℕ × ℕ → Bool
  | 0, _ => true
  | s + 1, w =>
    let w2 := vstep w
    failCondN w2 && sinkFailAux s w2

/-- One full update of the Sinkhorn loop body (source lines 526-528): the new
`c`, the new `r`, and the rescaled matrix. -/
def sinkhornUpd (k : ℕ) (P : Mtx) (r : Vec) : Mtx × Vec :=
  let c' : Vec := fun j => 1 / fsum k fun i => r i * P i j
  let r' : Vec := fun i => 1 / fsum k fun j => P i j * c' j
  (fun i j => r' i * P i j * c' j, r')

/-- The `r` scaling vector after `m` full updates. -/
def sinkhornR (k : ℕ) (P : Mtx) (r : Vec) : ℕ → Vec
  | 0 => r
  | m + 1 => (sinkhornUpd k P (sinkhornR k P r m)).2

/-- The initial `r` of `_doubly_stochastic` (source lines 516-517). -/
def sinkhornInitR (k : ℕ) (P : Mtx) : Vec :=
  let c : Vec := fun j => 1 / fsum k fun i => P i j
  fun i => 1 / fsum k fun j => P i j * c j

theorem fsum_eq_finsum (n : ℕ) (f : ℕ → ℚ) :
    fsum n f = ∑ i : Fin n, f i := by
  induction n with
  | zero => simp [fsum]
  | succ m ih =>
    rw [Fin.sum_univ_castSucc]
    simp only [Fin.coe_castSucc, Fin.val_last, ← ih]
    simp [fsum, List.range_succ]

theorem getD_finRange_map {n : ℕ} (f : Fin n → ℕ) (i : Fin n) :
    ((List.finRange n).map f).getD (i : ℕ) 0 = f i := by
  have hlen : (i : ℕ) < ((List.finRange n).map f).length := by
    simp
  rw [List.getD_eq_getElem _ _ hlen]
  simp

/-- C7: for every pair of `n × n` matrices and every permutation of
`{0, …, n-1}`, the scoring function `sum(A * B[perm][:, perm])` equals
`trace(A.T @ P @ B @ P.T)` for the induced permutation matrix `P`. -/
theorem calc_score_eq_trace (n : ℕ) (A B : Matrix (Fin n) (Fin n) ℚ)
    (p : Equiv.Perm (Fin n)) :
    calcScoreFin A B p = traceObjective A B p := by
  have hPB : permMatrix p * B = Matrix.of fun i j => B (p i) j := by
    ext i j
    simp only [Matrix.mul_apply, permMatrix, Matrix.of_apply, ite_mul, one_mul,
      zero_mul]
    rw [Finset.sum_ite_eq]
    simp
  have hBPT :
      (Matrix.of fun i j => B (p i) j) * (permMatrix p).transpose =
        Matrix.of fun i j => B (p i) (p j) := by
    ext i j
    simp only [Matrix.mul_apply, permMatrix, Matrix.transpose_apply,
      Matrix.of_apply, mul_ite, mul_one, mul_zero]
    rw [Finset.sum_ite_eq]
    simp
  have hL : calcScoreFin A B p = ∑ i : Fin n, ∑ j : Fin n, A i j * B (p i) (p j) := by
    unfold calcScoreFin _calc_score
    rw [fsum_eq_finsum]
    refine Finset.sum_congr rfl fun i _ => ?_
    rw [fsum_eq_finsum]
    refine Finset.sum_congr rfl fun j _ => ?_
    rw [getD_finRange_map, getD_finRange_map]
    have hij : (i : ℕ) < n ∧ (j : ℕ) < n := ⟨i.isLt, j.isLt⟩
    have hpij : ((p i : Fin n) : ℕ) < n ∧ ((p j : Fin n) : ℕ) < n :=
      ⟨(p i).isLt, (p j).isLt⟩
    dsimp only
    rw [dif_pos hij, dif_pos hpij]
  rw [hL]
  unfold traceObjective
  rw [mul_assoc, mul_assoc, ← mul_assoc (permMatrix p), hPB, hBPT, Matrix.trace]
  simp only [Matrix.diag_apply, Matrix.mul_apply, Matrix.transpose_apply,
    Matrix.of_apply]
  rw [Finset.sum_comm]

/-- C2: `_check_unknown_options` is not among the module's defined or imported
names, and every call of the 2-opt solver — whatever the inputs, valid or not —
returns the `NameError` raised by its first statement, so no 2-opt solve call
can ever return a `Result`. -/
theorem twoopt_always_nameerror :
    twoOptFirstCalledName ∉ qapModuleNames ∧
    ∀ (n : ℕ) (A B : Mtx) (maximize : Bool) (pm : List (ℕ × ℕ)) (rng : Rng)
      (pg : List (ℕ × ℕ)) (unk : List String),
      _quadratic_assignment_2opt n A B maximize pm rng pg unk =
        .error (.nameError "name _check_unknown_options is not defined") :=
  ⟨by decide, fun _ _ _ _ _ _ _ _ => rfl⟩

/-- C9 (code bug): a solve call with an unrecognized option key does not fail
with an `InvalidArgument` (`ValueError`) naming the key.  For method "2opt"
the call dies with the `NameError` of the undefined `_check_unknown_options`
(never naming the key); for method "faq" it fails with a `TypeError` from the
keyword expansion.  Evaluated at the failing input `method = "2opt"`,
`options = {"foo": …}`. -/
theorem unknown_option_not_invalid_argument :
    quadratic_assignment 2 (fun _ _ => 0) (fun _ _ => 0) "2opt"
        { QapOptions.default with unknown := ["foo"] } =
      .error (.nameError "name _check_unknown_options is not defined") ∧
    quadratic_assignment 2 (fun _ _ => 0) (fun _ _ => 0) "faq"
        { QapOptions.default with unknown := ["foo"] } =
      .error (.typeError
        "_quadratic_assignment_faq() got an unexpected keyword argument foo") ∧
    ∀ (n : ℕ) (A B : Mtx) (o : QapOptions),
      o.unknown ≠ [] →
      ∀ r, quadratic_assignment n A B "2opt" o ≠ .ok r := by
  refine ⟨by decide, by decide, fun n A B o _ r h => ?_⟩
  have hmeth : pyLower "2opt" = "2opt" := by decide
  simp only [quadratic_assignment, hmeth, _quadratic_assignment_2opt] at h
  simp at h

/-- Closed instance of `unknown_option_not_invalid_argument`: the failing
input evaluated concretely. -/
theorem unknown_option_not_invalid_argument_witness :
    ({ QapOptions.default with unknown := ["foo"] } : QapOptions).unknown ≠ [] ∧
    ∀ r, quadratic_assignment 2 (fun _ _ => 0) (fun _ _ => 0) "2opt"
      { QapOptions.default with unknown := ["foo"] } ≠ .ok r :=
  ⟨by decide, unknown_option_not_invalid_argument.2.2 2 (fun _ _ => 0)
    (fun _ _ => 0) { QapOptions.default with unknown := ["foo"] } (by decide)⟩

/-- C10: the solver is a deterministic function of its inputs and explicit
seed — two calls with identical matrices, method, options and seed produce
identical results (hence bit-identical `col_ind`, `fun` and `nit`). -/
theorem solve_deterministic (n₁ n₂ : ℕ) (A₁ A₂ B₁ B₂ : Mtx)
    (m₁ m₂ : String) (o₁ o₂ : QapOptions)
    (hn : n₁ = n₂) (hA : A₁ = A₂) (hB : B₁ = B₂) (hm : m₁ = m₂) (ho : o₁ = o₂) :
    quadratic_assignment n₁ A₁ B₁ m₁ o₁ = quadratic_assignment n₂ A₂ B₂ m₂ o₂ ∧
    ∀ r₁ r₂, quadratic_assignment n₁ A₁ B₁ m₁ o₁ = .ok r₁ →
      quadratic_assignment n₂ A₂ B₂ m₂ o₂ = .ok r₂ →
      r₁.col_ind = r₂.col_ind ∧ r₁.fun' = r₂.fun' ∧ r₁.nit = r₂.nit := by
  subst hn hA hB hm ho
  refine ⟨rfl, fun r₁ r₂ h₁ h₂ => ?_⟩
  rw [h₁] at h₂
  cases h₂
  exact ⟨rfl, rfl, rfl⟩

theorem solve_deterministic_witness :
    quadratic_assignment 1 (fun _ _ => 1) (fun _ _ => 1) "faq"
        { QapOptions.default with rng := some 7 } =
      quadratic_assignment 1 (fun _ _ => 1) (fun _ _ => 1) "faq"
        { QapOptions.default with rng := some 7 } :=
  (solve_deterministic 1 1 (fun _ _ => 1) (fun _ _ => 1) (fun _ _ => 1)
    (fun _ _ => 1) "faq" "faq" { QapOptions.default with rng := some 7 }
    { QapOptions.default with rng := some 7 } rfl rfl rfl rfl rfl).1

/-- C8: every violation listed in the spec is detected by
`_common_input_validation` itself — eagerly, before any numerical work, since
the function inspects only shapes and the seed list — and fails with a
`ValueError` whose message names the violated constraint: non-square `A` (or
`B`) mentions "square", a shape mismatch mentions "equal size", an oversized
seed list mentions "seeds", a negative seed index mentions "positive", an
out-of-range index mentions "less than", a duplicated index within a seed
column mentions "unique".  Each later case is stated under the falsity of the
earlier checks, mirroring the source's `elif` chain. -/
theorem validation_names_each_violation (A B : RawMtx) (pm : List (ℤ × ℤ)) :
    (A.rows ≠ A.cols →
      ∃ m, _common_input_validation A B pm = .error (.valueError m) ∧
        mentions m "square") ∧
    (A.rows = A.cols → B.rows ≠ B.cols →
      ∃ m, _common_input_validation A B pm = .error (.valueError m) ∧
        mentions m "square") ∧
    (A.rows = A.cols → B.rows = B.cols → (A.rows ≠ B.rows ∨ A.cols ≠ B.cols) →
      ∃ m, _common_input_validation A B pm = .error (.valueError m) ∧
        mentions m "equal size") ∧
    (A.rows = A.cols → B.rows = B.cols → A.rows = B.rows → A.cols = B.cols →
      pm.length > A.rows →
      ∃ m, _common_input_validation A B pm = .error (.valueError m) ∧
        mentions m "seeds") ∧
    (A.rows = A.cols → B.rows = B.cols → A.rows = B.rows → A.cols = B.cols →
      ¬ pm.length > A.rows →
      (pm.any fun ab => ab.1 < 0 ∨ ab.2 < 0) = true →
      ∃ m, _common_input_validation A B pm = .error (.valueError m) ∧
        mentions m "positive") ∧
    (A.rows = A.cols → B.rows = B.cols → A.rows = B.rows → A.cols = B.cols →
      ¬ pm.length > A.rows →
      (pm.any fun ab => ab.1 < 0 ∨ ab.2 < 0) = false →
      (pm.any fun ab => (A.rows : ℤ) ≤ ab.1 ∨ (A.rows : ℤ) ≤ ab.2) = true →
      ∃ m, _common_input_validation A B pm = .error (.valueError m) ∧
        mentions m "less than") ∧
    (A.rows = A.cols → B.rows = B.cols → A.rows = B.rows → A.cols = B.cols →
      ¬ pm.length > A.rows →
      (pm.any fun ab => ab.1 < 0 ∨ ab.2 < 0) = false →
      (pm.any fun ab => (A.rows : ℤ) ≤ ab.1 ∨ (A.rows : ℤ) ≤ ab.2) = false →
      ¬ ((pm.map Prod.fst).Nodup ∧ (pm.map Prod.snd).Nodup) →
      ∃ m, _common_input_validation A B pm = .error (.valueError m) ∧
        mentions m "unique") := by
  unfold _common_input_validation
  refine ⟨fun h1 => ?_, fun h1 h2 => ?_, fun h1 h2 h3 => ?_,
    fun h1 h2 h3 h4 h5 => ?_, fun h1 h2 h3 h4 h5 h6 => ?_,
    fun h1 h2 h3 h4 h5 h6 h7 => ?_, fun h1 h2 h3 h4 h5 h6 h7 h8 => ?_⟩
  · rw [if_pos h1]
    exact ⟨_, rfl, "`A` must be ", "", by decide⟩
  · rw [if_neg (fun hc => hc h1), if_pos h2]
    exact ⟨_, rfl, "`B` must be ", "", by decide⟩
  · rw [if_neg (fun hc => hc h1), if_neg (fun hc => hc h2), if_pos h3]
    exact ⟨_, rfl, "`A` and `B` matrices must be of ", "", by decide⟩
  · rw [if_neg (fun hc => hc h1), if_neg (fun hc => hc h2),
      if_neg (fun hc => hc.elim (fun hh => hh h3) fun hh => hh h4), if_pos h5]
    exact ⟨_, rfl, "`partial_match` can have only as many ", " as there are nodes",
      by decide⟩
  · rw [if_neg (fun hc => hc h1), if_neg (fun hc => hc h2),
      if_neg (fun hc => hc.elim (fun hh => hh h3) fun hh => hh h4), if_neg h5,
      if_pos h6]
    exact ⟨_, rfl, "`partial_match` must contain only ", " indices", by decide⟩
  · rw [if_neg (fun hc => hc h1), if_neg (fun hc => hc h2),
      if_neg (fun hc => hc.elim (fun hh => hh h3) fun hh => hh h4), if_neg h5,
      if_neg (by rw [h6]; exact Bool.false_ne_true), if_pos h7]
    exact ⟨_, rfl, "`partial_match` entries must be ", " number of nodes", by decide⟩
  · rw [if_neg (fun hc => hc h1), if_neg (fun hc => hc h2),
      if_neg (fun hc => hc.elim (fun hh => hh h3) fun hh => hh h4), if_neg h5,
      if_neg (by rw [h6]; exact Bool.false_ne_true),
      if_neg (by rw [h7]; exact Bool.false_ne_true), if_pos h8]
    exact ⟨_, rfl, "`partial_match` column entries must be ", "", by decide⟩

/-- Closed instance of `validation_names_each_violation`: a non-square `A`
fails mentioning "square", and a duplicated first-column seed index fails
mentioning "unique". -/
theorem validation_names_each_violation_witness :
    ((⟨2, 3, fun _ _ => 0⟩ : RawMtx).rows ≠ (⟨2, 3, fun _ _ => 0⟩ : RawMtx).cols ∧
      ∃ m, _common_input_validation ⟨2, 3, fun _ _ => 0⟩ ⟨2, 3, fun _ _ => 0⟩ [] =
        .error (.valueError m) ∧ mentions m "square") ∧
    (∃ m, _common_input_validation ⟨2, 2, fun _ _ => 0⟩ ⟨2, 2, fun _ _ => 0⟩
        [(0, 0), (0, 1)] = .error (.valueError m) ∧ mentions m "unique") :=
  ⟨⟨by decide, (validation_names_each_violation ⟨2, 3, fun _ _ => 0⟩
      ⟨2, 3, fun _ _ => 0⟩ []).1 (by decide)⟩,
    (validation_names_each_violation ⟨2, 2, fun _ _ => 0⟩ ⟨2, 2, fun _ _ => 0⟩
      [(0, 0), (0, 1)]).2.2.2.2.2.2 (by decide) (by decide) (by decide)
      (by decide) (by decide) (by decide) (by decide) (by decide)⟩

set_option maxRecDepth 10000

/-- C3: on the documented 4 × 4 example with method "faq" and all default
options (no seeds, barycenter `P0`, `maximize = False`, `maxiter = 30`,
`tol = 0.03`), the solver returns `col_ind = [0, 3, 2, 1]` with objective
value `fun = 3260`. -/
theorem faq_worked_example :
    (quadratic_assignment 4 Aex Bex "faq" QapOptions.default).map
      (fun r => (r.col_ind, r.fun')) = .ok ([0, 3, 2, 1], 3260) := by decide!

theorem fsum_congr {n : ℕ} {f g : ℕ → ℚ} (h : ∀ i, f i = g i) :
    fsum n f = fsum n g := congrArg (fsum n) (funext h)

theorem fsum_add (n : ℕ) (f g : ℕ → ℚ) :
    fsum n (fun i => f i + g i) = fsum n f + fsum n g := by
  simp only [fsum_eq_finsum]
  exact Finset.sum_add_distrib

theorem fsum_mul_left (n : ℕ) (c : ℚ) (f : ℕ → ℚ) :
    fsum n (fun i => c * f i) = c * fsum n f := by
  simp only [fsum_eq_finsum]
  exact (Finset.mul_sum _ _ _).symm

theorem fsum_comm (n m : ℕ) (f : ℕ → ℕ → ℚ) :
    fsum n (fun i => fsum m (f i)) = fsum m (fun j => fsum n (fun i => f i j)) := by
  simp only [fsum_eq_finsum]
  exact Finset.sum_comm

theorem fsum_congr_lt {n : ℕ} {f g : ℕ → ℚ} (h : ∀ i < n, f i = g i) :
    fsum n f = fsum n g := by
  simp only [fsum_eq_finsum]
  exact Finset.sum_congr rfl fun i _ => h i i.isLt

theorem fsum_ite (n c : ℕ) (f : ℕ → ℚ) (hc : c < n) :
    fsum n (fun t => if c = t then f t else 0) = f c := by
  rw [fsum_eq_finsum]
  have he : ∀ t : Fin n, (if c = (t : ℕ) then f t else 0) =
      (if (⟨c, hc⟩ : Fin n) = t then f t else 0) := by
    intro t
    congr 1
    simp [Fin.ext_iff]
  rw [Finset.sum_congr rfl fun t _ => he t, Finset.sum_ite_eq]
  simp

theorem fsum_affine (n : ℕ) (x : ℚ) (f g h : ℕ → ℚ) :
    fsum n (fun t => f t * (g t + x * h t)) =
      fsum n (fun t => f t * g t) + x * fsum n (fun t => f t * h t) := by
  rw [← fsum_mul_left, ← fsum_add]
  exact fsum_congr fun t => by ring

theorem fsum_affineL (n : ℕ) (x : ℚ) (f g h : ℕ → ℚ) :
    fsum n (fun t => (g t + x * h t) * f t) =
      fsum n (fun t => g t * f t) + x * fsum n (fun t => h t * f t) := by
  rw [← fsum_mul_left, ← fsum_add]
  exact fsum_congr fun t => by ring

theorem fsum_affine2 (n : ℕ) (x : ℚ) (g h g' h' : ℕ → ℚ) :
    fsum n (fun t => (g t + x * h t) * (g' t + x * h' t)) =
      fsum n (fun t => g t * g' t) +
        x * (fsum n (fun t => g t * h' t) + fsum n (fun t => h t * g' t)) +
        x ^ 2 * fsum n (fun t => h t * h' t) := by
  rw [mul_add, ← fsum_mul_left, ← fsum_mul_left, ← fsum_mul_left, ← fsum_add,
    ← fsum_add, ← fsum_add]
  exact fsum_congr fun t => by ring

theorem fsum_quad (n : ℕ) (x : ℚ) (q0 q1 q2 : ℕ → ℚ) :
    fsum n (fun t => q0 t + x * q1 t + x ^ 2 * q2 t) =
      fsum n q0 + x * fsum n q1 + x ^ 2 * fsum n q2 := by
  rw [← fsum_mul_left, ← fsum_mul_left, ← fsum_add, ← fsum_add]

theorem fsum_affine1 (n : ℕ) (x : ℚ) (g h : ℕ → ℚ) :
    fsum n (fun t => g t + x * h t) = fsum n g + x * fsum n h := by
  rw [← fsum_mul_left, ← fsum_add]

theorem fsum_mul_fsum (n m : ℕ) (f g : ℕ → ℚ) :
    fsum n f * fsum m g = fsum n fun t => fsum m fun s => f t * g s := by
  simp only [fsum_eq_finsum]
  rw [Finset.sum_mul_sum]

theorem fsum_mul_right (n : ℕ) (c : ℚ) (f : ℕ → ℚ) :
    fsum n f * c = fsum n fun i => f i * c := by
  rw [mul_comm, ← fsum_mul_left]
  exact fsum_congr fun t => by ring

theorem fsum_mul_ite (n c : ℕ) (f : ℕ → ℚ) (hc : c < n) :
    fsum n (fun t => f t * if c = t then (1 : ℚ) else 0) = f c := by
  have he : (fun t => f t * if c = t then (1 : ℚ) else 0) =
      fun t => if c = t then f t else 0 := by
    funext t
    by_cases h : c = t <;> simp [h]
  rw [he, fsum_ite _ _ _ hc]

theorem fsum_ite_mul (n c : ℕ) (f : ℕ → ℚ) (hc : c < n) :
    fsum n (fun t => (if c = t then (1 : ℚ) else 0) * f t) = f c := by
  have he : (fun t => (if c = t then (1 : ℚ) else 0) * f t) =
      fun t => if c = t then f t else 0 := by
    funext t
    by_cases h : c = t <;> simp [h]
  rw [he, fsum_ite _ _ _ hc]

theorem fsum_affineQ (n : ℕ) (x : ℚ) (f g h k : ℕ → ℚ) :
    fsum n (fun t => f t * (g t + x * h t + x ^ 2 * k t)) =
      fsum n (fun t => f t * g t) + x * fsum n (fun t => f t * h t) +
        x ^ 2 * fsum n (fun t => f t * k t) := by
  rw [← fsum_mul_left, ← fsum_mul_left, ← fsum_add, ← fsum_add]
  exact fsum_congr fun t => by ring

theorem gLine_expand (u m : ℕ) (A11 A12 A21 A22 B11 B12 B21 B22 P Q : Mtx)
    (x : ℚ) :
    faqLineObjective u m A11 A12 A21 A22 B11 B12 B21 B22
      (fun i j => x * P i j + (1 - x) * Q i j) =
    x ^ 2 * hadSum u u A22 (mmul u (mmul u (msub P Q) B22) (mT (msub P Q))) +
    x * (hadSum m u A12 (mmul u B12 (mT (msub P Q))) +
         hadSum u m A21 (mmul u (msub P Q) B21) +
         hadSum u u A22 (mmul u (mmul u (msub P Q) B22) (mT Q)) +
         hadSum u u A22 (mmul u (mmul u Q B22) (mT (msub P Q)))) +
    faqLineObjective u m A11 A12 A21 A22 B11 B12 B21 B22 Q := by
  have hM : ∀ a b : ℕ, x * P a b + (1 - x) * Q a b = Q a b + x * (P a b - Q a b) :=
    fun a b => by ring
  unfold faqLineObjective hadSum mmul mT msub
  simp only [hM]
  simp only [fsum_affine, fsum_affineL, fsum_affine2, fsum_affineQ, fsum_quad,
    fsum_affine1]
  ring

theorem fsum4_reorder (n : ℕ) (G : ℕ → ℕ → ℕ → ℕ → ℚ) :
    fsum n (fun i => fsum n fun j => fsum n fun t => fsum n fun s => G t j s i) =
      fsum n fun a => fsum n fun b => fsum n fun c => fsum n fun d => G a b c d :=
  calc
    fsum n (fun i => fsum n fun j => fsum n fun t => fsum n fun s => G t j s i)
        = fsum n fun j => fsum n fun i => fsum n fun t => fsum n fun s => G t j s i :=
          fsum_comm n n _
    _ = fsum n fun j => fsum n fun t => fsum n fun i => fsum n fun s => G t j s i :=
          fsum_congr fun j => fsum_comm n n _
    _ = fsum n fun j => fsum n fun t => fsum n fun s => fsum n fun i => G t j s i :=
          fsum_congr fun j => fsum_congr fun t => fsum_comm n n _
    _ = fsum n fun t => fsum n fun j => fsum n fun s => fsum n fun i => G t j s i :=
          fsum_comm n n _

theorem fsum3_swap13 (n m : ℕ) (G : ℕ → ℕ → ℕ → ℚ) :
    fsum n (fun i => fsum m fun j => fsum n fun t => G t j i) =
      fsum n fun a => fsum m fun b => fsum n fun c => G a b c :=
  calc
    fsum n (fun i => fsum m fun j => fsum n fun t => G t j i)
        = fsum m fun j => fsum n fun i => fsum n fun t => G t j i := fsum_comm n m _
    _ = fsum m fun j => fsum n fun t => fsum n fun i => G t j i :=
          fsum_congr fun j => fsum_comm n n _
    _ = fsum n fun t => fsum m fun j => fsum n fun i => G t j i := fsum_comm m n _

theorem fsum3_cycle (n m : ℕ) (G : ℕ → ℕ → ℕ → ℚ) :
    fsum n (fun i => fsum m fun j => fsum n fun t => G j t i) =
      fsum m fun a => fsum n fun b => fsum n fun c => G a b c :=
  calc
    fsum n (fun i => fsum m fun j => fsum n fun t => G j t i)
        = fsum m fun j => fsum n fun i => fsum n fun t => G j t i := fsum_comm n m _
    _ = fsum m fun j => fsum n fun t => fsum n fun i => G j t i :=
          fsum_congr fun j => fsum_comm n n _

theorem fsum3_cycle' (n : ℕ) (G : ℕ → ℕ → ℕ → ℚ) :
    fsum n (fun i => fsum n fun j => fsum n fun t => G t i j) =
      fsum n fun a => fsum n fun b => fsum n fun c => G a b c :=
  calc
    fsum n (fun i => fsum n fun j => fsum n fun t => G t i j)
        = fsum n fun i => fsum n fun t => fsum n fun j => G t i j :=
          fsum_congr fun i => fsum_comm n n _
    _ = fsum n fun t => fsum n fun i => fsum n fun j => G t i j := fsum_comm n n _

theorem faq_a_code_eq (u : ℕ) (A22 B22 R : Mtx) :
    hadSum u u (mT (mmul u (mT A22) R)) (mmul u B22 (mT R)) =
      hadSum u u A22 (mmul u (mmul u R B22) (mT R)) := by
  unfold hadSum mmul mT
  calc
    fsum u (fun i => fsum u fun j =>
        (fsum u fun t => A22 t j * R t i) * fsum u fun s => B22 i s * R j s)
        = fsum u (fun i => fsum u fun j => fsum u fun t => fsum u fun s =>
            A22 t j * (R t i * B22 i s * R j s)) := by
          refine fsum_congr fun i => fsum_congr fun j => ?_
          rw [fsum_mul_fsum]
          exact fsum_congr fun t => fsum_congr fun s => by ring
    _ = fsum u (fun a => fsum u fun b => fsum u fun c => fsum u fun d =>
            A22 a b * (R a d * B22 d c * R b c)) :=
          fsum4_reorder u fun a b c d => A22 a b * (R a d * B22 d c * R b c)
    _ = fsum u (fun i => fsum u fun j =>
            A22 i j * fsum u fun t => (fsum u fun s => R i s * B22 s t) * R j t) := by
          refine fsum_congr fun i => fsum_congr fun j => ?_
          rw [← fsum_mul_left]
          refine fsum_congr fun t => ?_
          rw [fsum_mul_right, ← fsum_mul_left]

theorem faq_b21_code_eq (u m : ℕ) (A21 B21 R : Mtx) :
    hadSum u m (mmul u (mT R) A21) B21 = hadSum u m A21 (mmul u R B21) := by
  unfold hadSum mmul mT
  calc
    fsum u (fun i => fsum m fun j => (fsum u fun t => R t i * A21 t j) * B21 i j)
        = fsum u (fun i => fsum m fun j => fsum u fun t =>
            A21 t j * (R t i * B21 i j)) := by
          refine fsum_congr fun i => fsum_congr fun j => ?_
          rw [fsum_mul_right]
          exact fsum_congr fun t => by ring
    _ = fsum u (fun a => fsum m fun b => fsum u fun c =>
            A21 a b * (R a c * B21 c b)) :=
          fsum3_swap13 u m fun a b c => A21 a b * (R a c * B21 c b)
    _ = fsum u (fun i => fsum m fun j => A21 i j * fsum u fun t => R i t * B21 t j) := by
          refine fsum_congr fun i => fsum_congr fun j => ?_
          rw [← fsum_mul_left]

theorem faq_b12_code_eq (u m : ℕ) (A12 B12 R : Mtx) :
    hadSum u m (mmul u (mT R) (mT A12)) (mT B12) =
      hadSum m u A12 (mmul u B12 (mT R)) := by
  unfold hadSum mmul mT
  calc
    fsum u (fun i => fsum m fun j => (fsum u fun t => R t i * A12 j t) * B12 j i)
        = fsum u (fun i => fsum m fun j => fsum u fun t =>
            A12 j t * (B12 j i * R t i)) := by
          refine fsum_congr fun i => fsum_congr fun j => ?_
          rw [fsum_mul_right]
          exact fsum_congr fun t => by ring
    _ = fsum m (fun a => fsum u fun b => fsum u fun c =>
            A12 a b * (B12 a c * R b c)) :=
          fsum3_cycle u m fun a b c => A12 a b * (B12 a c * R b c)
    _ = fsum m (fun i => fsum u fun j => A12 i j * fsum u fun t => B12 i t * R j t) := by
          refine fsum_congr fun i => fsum_congr fun j => ?_
          rw [← fsum_mul_left]

theorem faq_b22a_code_eq (u : ℕ) (A22 B22 R : Mtx) (cols : List ℕ)
    (hcols : ∀ i, i < u → cols.getD i 0 < u) :
    hadSum u u (mmul u (mT A22) R) (fun i j => mT B22 (cols.getD i 0) j) =
      hadSum u u A22 (mmul u (mmul u R B22)
        (mT fun i j => if cols.getD i 0 = j then (1 : ℚ) else 0)) := by
  unfold hadSum mmul mT
  calc
    fsum u (fun i => fsum u fun j =>
        (fsum u fun t => A22 t i * R t j) * B22 j (cols.getD i 0))
        = fsum u (fun i => fsum u fun j => fsum u fun t =>
            A22 t i * (R t j * B22 j (cols.getD i 0))) := by
          refine fsum_congr fun i => fsum_congr fun j => ?_
          rw [fsum_mul_right]
          exact fsum_congr fun t => by ring
    _ = fsum u (fun a => fsum u fun b => fsum u fun c =>
            A22 a b * (R a c * B22 c (cols.getD b 0))) :=
          fsum3_cycle' u fun a b c => A22 a b * (R a c * B22 c (cols.getD b 0))
    _ = fsum u (fun i => fsum u fun j => A22 i j * fsum u fun t =>
            (fsum u fun s => R i s * B22 s t) *
              if cols.getD j 0 = t then (1 : ℚ) else 0) := by
          refine fsum_congr_lt fun i hi => fsum_congr_lt fun j hj => ?_
          symm
          rw [fsum_mul_left, fsum_mul_ite _ _ _ (hcols j hj)]
    _ = fsum u (fun i => fsum u fun j => A22 i j * fsum u fun t =>
            (fsum u fun s => R i s * B22 s t) *
              (fun i j => if cols.getD i 0 = j then (1 : ℚ) else 0) j t) := rfl

theorem faq_b22b_code_eq (u : ℕ) (A22 B22 R : Mtx) (cols : List ℕ)
    (hcols : ∀ i, i < u → cols.getD i 0 < u) :
    hadSum u u A22 (fun i j => mmul u B22 (mT R) (cols.getD i 0) j) =
      hadSum u u A22 (mmul u
        (mmul u (fun i j => if cols.getD i 0 = j then (1 : ℚ) else 0) B22)
        (mT R)) := by
  unfold hadSum mmul mT
  refine fsum_congr_lt fun i hi => fsum_congr fun j => ?_
  congr 1
  refine fsum_congr fun t => ?_
  congr 1
  rw [fsum_ite_mul _ _ _ (hcols i hi)]

/-- C4: in each FAQ iteration, with `a`, `b` the quantities computed by the
code (source lines 447-455), the line-search objective along the segment from
the direction `Q` (step 0) to the position `P` (step 1) is exactly the
quadratic `a·x² + b·x + c`; the chosen step `alpha` is the vertex `-b/(2a)`
whenever `a` times the min/max sign is positive and the vertex lies in
`[0, 1]`, and otherwise `alpha ∈ {0, 1}` is the endpoint with the better
sign-adjusted objective value, step 0 on an exact tie. -/
theorem faq_line_search_rule (u m : ℕ)
    (A11 A12 A21 A22 B11 B12 B21 B22 P : Mtx) (cols : List ℕ)
    (maximize : Bool) (Q R : Mtx) (a b s : ℚ) (g : ℚ → ℚ)
    (hcols : ∀ i, i < u → cols.getD i 0 < u)
    (hQ : Q = fun i j => if cols.getD i 0 = j then (1 : ℚ) else 0)
    (hR : R = msub P Q)
    (ha : a = hadSum u u (mT (mmul u (mT A22) R)) (mmul u B22 (mT R)))
    (hb : b = hadSum u m (mmul u (mT R) A21) B21 +
      hadSum u m (mmul u (mT R) (mT A12)) (mT B12) +
      hadSum u u (mmul u (mT A22) R) (fun i j => mT B22 (cols.getD i 0) j) +
      hadSum u u A22 (fun i j => mmul u B22 (mT R) (cols.getD i 0) j))
    (hs : s = if maximize then -1 else 1)
    (hg : g = fun x => faqLineObjective u m A11 A12 A21 A22 B11 B12 B21 B22
      (fun i j => x * P i j + (1 - x) * Q i j)) :
    (∀ x, g x = a * x ^ 2 + b * x + g 0) ∧
    (a * s > 0 → 0 ≤ -b / (2 * a) → -b / (2 * a) ≤ 1 →
      faqAlpha a b s = -b / (2 * a)) ∧
    (¬ (a * s > 0 ∧ 0 ≤ -b / (2 * a) ∧ -b / (2 * a) ≤ 1) →
      (faqAlpha a b s = 0 ∨ faqAlpha a b s = 1) ∧
      (s * g 0 ≤ s * g 1 → faqAlpha a b s = 0) ∧
      (s * g 1 < s * g 0 → faqAlpha a b s = 1)) := by
  subst hQ hR ha hb hs
  have key : ∀ x : ℚ, g x =
      hadSum u u (mT (mmul u (mT A22) (msub P
          (fun i j => if cols.getD i 0 = j then (1 : ℚ) else 0))))
        (mmul u B22 (mT (msub P
          (fun i j => if cols.getD i 0 = j then (1 : ℚ) else 0)))) * x ^ 2 +
      (hadSum u m (mmul u (mT (msub P
          (fun i j => if cols.getD i 0 = j then (1 : ℚ) else 0))) A21) B21 +
       hadSum u m (mmul u (mT (msub P
          (fun i j => if cols.getD i 0 = j then (1 : ℚ) else 0))) (mT A12)) (mT B12) +
       hadSum u u (mmul u (mT A22) (msub P
          (fun i j => if cols.getD i 0 = j then (1 : ℚ) else 0)))
         (fun i j => mT B22 (cols.getD i 0) j) +
       hadSum u u A22 (fun i j => mmul u B22 (mT (msub P
          (fun i j => if cols.getD i 0 = j then (1 : ℚ) else 0)))
         (cols.getD i 0) j)) * x +
      faqLineObjective u m A11 A12 A21 A22 B11 B12 B21 B22
        (fun i j => if cols.getD i 0 = j then (1 : ℚ) else 0) := by
    intro x
    simp only [hg]
    rw [gLine_expand, faq_a_code_eq, faq_b21_code_eq, faq_b12_code_eq,
      faq_b22a_code_eq u A22 B22 _ cols hcols,
      faq_b22b_code_eq u A22 B22 _ cols hcols]
    ring
  have h0 : g 0 = faqLineObjective u m A11 A12 A21 A22 B11 B12 B21 B22
      (fun i j => if cols.getD i 0 = j then (1 : ℚ) else 0) := by
    rw [key 0]
    ring
  have hexp : ∀ x, g x =
      hadSum u u (mT (mmul u (mT A22) (msub P
          (fun i j => if cols.getD i 0 = j then (1 : ℚ) else 0))))
        (mmul u B22 (mT (msub P
          (fun i j => if cols.getD i 0 = j then (1 : ℚ) else 0)))) * x ^ 2 +
      (hadSum u m (mmul u (mT (msub P
          (fun i j => if cols.getD i 0 = j then (1 : ℚ) else 0))) A21) B21 +
       hadSum u m (mmul u (mT (msub P
          (fun i j => if cols.getD i 0 = j then (1 : ℚ) else 0))) (mT A12)) (mT B12) +
       hadSum u u (mmul u (mT A22) (msub P
          (fun i j => if cols.getD i 0 = j then (1 : ℚ) else 0)))
         (fun i j => mT B22 (cols.getD i 0) j) +
       hadSum u u A22 (fun i j => mmul u B22 (mT (msub P
          (fun i j => if cols.getD i 0 = j then (1 : ℚ) else 0)))
         (cols.getD i 0) j)) * x + g 0 := by
    intro x
    rw [key x, h0]
  refine ⟨hexp, fun h1 h2 h3 => ?_, fun h => ?_⟩
  · unfold faqAlpha
    rw [if_pos ⟨h1, h2, h3⟩]
  · unfold faqAlpha
    rw [if_neg h]
    have hg1 : g 1 =
        hadSum u u (mT (mmul u (mT A22) (msub P
            (fun i j => if cols.getD i 0 = j then (1 : ℚ) else 0))))
          (mmul u B22 (mT (msub P
            (fun i j => if cols.getD i 0 = j then (1 : ℚ) else 0)))) +
        (hadSum u m (mmul u (mT (msub P
            (fun i j => if cols.getD i 0 = j then (1 : ℚ) else 0))) A21) B21 +
         hadSum u m (mmul u (mT (msub P
            (fun i j => if cols.getD i 0 = j then (1 : ℚ) else 0))) (mT A12)) (mT B12) +
         hadSum u u (mmul u (mT A22) (msub P
            (fun i j => if cols.getD i 0 = j then (1 : ℚ) else 0)))
           (fun i j => mT B22 (cols.getD i 0) j) +
         hadSum u u A22 (fun i j => mmul u B22 (mT (msub P
            (fun i j => if cols.getD i 0 = j then (1 : ℚ) else 0)))
           (cols.getD i 0) j)) + g 0 := by
      rw [hexp 1]
      ring
    constructor
    · by_cases hc : (hadSum u m (mmul u (mT (msub P
          (fun i j => if cols.getD i 0 = j then (1 : ℚ) else 0))) A21) B21 +
          hadSum u m (mmul u (mT (msub P
            (fun i j => if cols.getD i 0 = j then (1 : ℚ) else 0))) (mT A12)) (mT B12) +
          hadSum u u (mmul u (mT A22) (msub P
            (fun i j => if cols.getD i 0 = j then (1 : ℚ) else 0)))
            (fun i j => mT B22 (cols.getD i 0) j) +
          hadSum u u A22 (fun i j => mmul u B22 (mT (msub P
            (fun i j => if cols.getD i 0 = j then (1 : ℚ) else 0)))
            (cols.getD i 0) j) +
          hadSum u u (mT (mmul u (mT A22) (msub P
            (fun i j => if cols.getD i 0 = j then (1 : ℚ) else 0))))
            (mmul u B22 (mT (msub P
              (fun i j => if cols.getD i 0 = j then (1 : ℚ) else 0))))) *
          (if maximize then (-1 : ℚ) else 1) < 0
      · rw [if_pos hc]
        right
        rfl
      · rw [if_neg hc]
        left
        rfl
    constructor
    · intro hle
      have h01 : 0 ≤ (if maximize then (-1 : ℚ) else 1) *
          (g 1 - g 0) := by linarith
      rw [hg1] at h01
      rw [if_neg (by nlinarith [h01])]
    · intro hlt
      have h01 : (if maximize then (-1 : ℚ) else 1) * (g 1 - g 0) < 0 := by
        linarith
      rw [hg1] at h01
      rw [if_pos (by nlinarith [h01])]

/-- Closed instance of `faq_line_search_rule` at a degenerate concrete input,
every hypothesis discharged by evaluation. -/
theorem faq_line_search_rule_witness :
    faqAlpha 0 0 1 = 0 ∨ faqAlpha 0 0 1 = 1 :=
  ((faq_line_search_rule 0 0 (fun _ _ => 0) (fun _ _ => 0) (fun _ _ => 0)
      (fun _ _ => 0) (fun _ _ => 0) (fun _ _ => 0) (fun _ _ => 0) (fun _ _ => 0)
      (fun _ _ => 0) [] false _ _ 0 0 1 _
      (fun i hi => absurd hi (Nat.not_lt_zero i)) rfl rfl (by decide!)
      (by decide!) (by decide!) rfl).2.2 (by decide!)).1

theorem listSwap_comm (l : List ℕ) (i j : ℕ) : listSwap l i j = listSwap l j i := by
  by_cases h : i = j
  · subst h
    rfl
  · unfold listSwap
    exact List.set_comm _ _ _ h

theorem pairsOf_mem {l : List ℕ} {i j : ℕ} (hi : i ∈ l) (hj : j ∈ l) :
    (i, j) ∈ pairsOf l ∨ (j, i) ∈ pairsOf l := by
  induction l with
  | nil => cases hi
  | cons x xs ih =>
    unfold pairsOf
    rcases List.mem_cons.1 hi with hix | hixs
    · rcases List.mem_cons.1 hj with hjx | hjxs
      · left
        subst hix hjx
        exact List.mem_cons_self _ _
      · left
        subst hix
        refine List.mem_cons_of_mem _ (List.mem_append_left _ ?_)
        exact List.mem_map.2 ⟨j, hjxs, rfl⟩
    · rcases List.mem_cons.1 hj with hjx | hjxs
      · right
        subst hjx
        refine List.mem_cons_of_mem _ (List.mem_append_left _ ?_)
        exact List.mem_map.2 ⟨i, hixs, rfl⟩
      · rcases ih hixs hjxs with h | h
        · left
          exact List.mem_cons_of_mem _ (List.mem_append_right _ h)
        · right
          exact List.mem_cons_of_mem _ (List.mem_append_right _ h)

theorem twoOptPass_none_spec (n : ℕ) (A B : Mtx) (better : ℚ → ℚ → Bool) :
    ∀ (pairs : List (ℕ × ℕ)) (perm : List ℕ) (best : ℚ) (nit nit' : ℕ),
      twoOptPass n A B better pairs perm best nit = (none, nit') →
      ∀ ij ∈ pairs, better (_calc_score n A B (listSwap perm ij.1 ij.2)) best = false := by
  intro pairs
  induction pairs with
  | nil =>
    intro perm best nit nit' h ij hij
    cases hij
  | cons hd rest ih =>
    intro perm best nit nit' h ij hij
    unfold twoOptPass at h
    by_cases hb : better (_calc_score n A B (listSwap perm hd.1 hd.2)) best
    · rw [if_pos hb] at h
      cases h
    · rw [if_neg hb] at h
      rcases List.mem_cons.1 hij with hhd | hrest
      · subst hhd
        exact Bool.eq_false_iff.2 hb
      · exact ih perm best (nit + 1) nit' h ij hrest

theorem twoOptPass_some_spec (n : ℕ) (A B : Mtx) (better : ℚ → ℚ → Bool) :
    ∀ (pairs : List (ℕ × ℕ)) (perm : List ℕ) (best : ℚ) (nit nit' : ℕ)
      (pb : List ℕ × ℚ),
      twoOptPass n A B better pairs perm best nit = (some pb, nit') →
      pb.2 = _calc_score n A B pb.1 := by
  intro pairs
  induction pairs with
  | nil =>
    intro perm best nit nit' pb h
    cases h
  | cons hd rest ih =>
    intro perm best nit nit' pb h
    unfold twoOptPass at h
    by_cases hb : better (_calc_score n A B (listSwap perm hd.1 hd.2)) best
    · rw [if_pos hb] at h
      cases h
      rfl
    · rw [if_neg hb] at h
      exact ih perm best (nit + 1) nit' pb h

theorem twoOptLoop_spec (n : ℕ) (A B : Mtx) (better : ℚ → ℚ → Bool)
    (pairs : List (ℕ × ℕ)) :
    ∀ (fuel : ℕ) (perm : List ℕ) (best : ℚ) (nit : ℕ)
      (res : List ℕ × ℚ × ℕ),
      best = _calc_score n A B perm →
      twoOptLoop n A B better pairs fuel perm best nit = some res →
      res.2.1 = _calc_score n A B res.1 ∧
      ∀ ij ∈ pairs,
        better (_calc_score n A B (listSwap res.1 ij.1 ij.2)) res.2.1 = false := by
  intro fuel
  induction fuel with
  | zero =>
    intro perm best nit res _ h
    cases h
  | succ f ih =>
    intro perm best nit res hinv h
    unfold twoOptLoop at h
    rcases hp : twoOptPass n A B better pairs perm best nit with ⟨o, nit'⟩
    rw [hp] at h
    rcases o with _ | pb
    · cases h
      exact ⟨hinv, twoOptPass_none_spec n A B better pairs perm best nit nit' hp⟩
    · exact ih pb.1 pb.2 nit' res
        (twoOptPass_some_spec n A B better pairs perm best nit nit' pb hp) h

theorem pm_fst_covers (n : ℕ) (pm : List (ℕ × ℕ)) (hok : pmOk n pm = true)
    (hlen : pm.length = n) : ∀ i, i < n → i ∈ pm.map Prod.fst := by
  intro i hi
  have hparts := hok
  unfold pmOk at hparts
  simp only [Bool.and_eq_true, decide_eq_true_eq, List.all_eq_true] at hparts
  obtain ⟨⟨⟨_, hbnd⟩, hnd1⟩, _⟩ := hparts
  have hsub : (pm.map Prod.fst).toFinset ⊆ Finset.range n := by
    intro x hx
    rw [List.mem_toFinset, List.mem_map] at hx
    obtain ⟨ab, hab, rfl⟩ := hx
    exact Finset.mem_range.2 (hbnd ab hab).1
  have hcard : (Finset.range n).card ≤ (pm.map Prod.fst).toFinset.card := by
    rw [List.toFinset_card_of_nodup hnd1, List.length_map, hlen,
      Finset.card_range]
  have heq := Finset.eq_of_subset_of_card_le hsub hcard
  have : i ∈ (pm.map Prod.fst).toFinset := by
    rw [heq]
    exact Finset.mem_range.2 hi
  exact List.mem_toFinset.1 this

/-- C5: whenever the 2-opt sweep (the body of `_quadratic_assignment_2opt`,
source lines 629-713) terminates and returns a result, the returned `fun` is
the score of the returned permutation and no single swap of two free
(non-seeded) indices strictly improves it — smaller for minimizing, greater
for maximizing. -/
theorem twoopt_local_optimality (n : ℕ) (A B : Mtx) (maximize : Bool)
    (pm pg : List (ℕ × ℕ)) (rng : Rng) (fuel : ℕ) (r : QapResult)
    (hres : _quadratic_assignment_2opt_body n A B maximize pm rng pg fuel =
      .ok (some r)) :
    r.fun' = _calc_score n A B r.col_ind ∧
    ∀ i j, i < n → i ∉ pm.map Prod.fst → j < n → j ∉ pm.map Prod.fst →
      ¬ (if maximize then r.fun' < _calc_score n A B (listSwap r.col_ind i j)
         else _calc_score n A B (listSwap r.col_ind i j) < r.fun') := by
  unfold _quadratic_assignment_2opt_body at hres
  split at hres
  · cases hres
  next hok1 =>
  have hok : pmOk n pm = true := Bool.of_not_eq_false (by
    intro hfalse
    exact hok1 (by simp [hfalse]))
  split at hres
  next houtlier =>
    simp only [Except.ok.injEq, Option.some.injEq] at hres
    subst hres
    refine ⟨rfl, fun i j hi hifree hj hjfree himp => ?_⟩
    rcases houtlier with hn0 | hfull
    · omega
    · exact hifree (pm_fst_covers n pm hok hfull i hi)
  next hnotout =>
  split at hres
  · cases hres
  next hokg1 =>
  rcases hinit : twoOptInit n pm pg rng with e | pr
  · rw [hinit] at hres
    simp at hres
  rw [hinit] at hres
  simp only [] at hres
  have endgame : ∀ ifree : List ℕ,
      (∀ k, k < n → k ∉ pm.map Prod.fst → k ∈ ifree) →
      ∀ res : List ℕ × ℚ × ℕ,
        twoOptLoop n A B
          (fun x y => if maximize then decide (y < x) else decide (x < y))
          (pairsOf ifree) fuel pr.1 (_calc_score n A B pr.1) 0 = some res →
        r = ⟨res.1, res.2.1, res.2.2⟩ →
        r.fun' = _calc_score n A B r.col_ind ∧
        ∀ i j, i < n → i ∉ pm.map Prod.fst → j < n → j ∉ pm.map Prod.fst →
          ¬ (if maximize then
              r.fun' < _calc_score n A B (listSwap r.col_ind i j)
            else _calc_score n A B (listSwap r.col_ind i j) < r.fun') := by
    intro ifree hmem res hloop hr
    subst hr
    have hspec := twoOptLoop_spec n A B
      (fun x y => if maximize then decide (y < x) else decide (x < y))
      (pairsOf ifree) fuel pr.1 (_calc_score n A B pr.1) 0 res rfl hloop
    refine ⟨hspec.1, fun i j hi hifree hj hjfree himp => ?_⟩
    rcases pairsOf_mem (hmem i hi hifree) (hmem j hj hjfree) with hp | hp
    · have hfalse := hspec.2 (i, j) hp
      simp only [] at hfalse
      by_cases hm : maximize = true
      · rw [if_pos hm] at hfalse
        rw [if_pos hm] at himp
        exact absurd himp (of_decide_eq_false hfalse)
      · rw [if_neg hm] at hfalse
        rw [if_neg hm] at himp
        exact absurd himp (of_decide_eq_false hfalse)
    · have hfalse := hspec.2 (j, i) hp
      simp only [] at hfalse
      rw [show listSwap res.1 j i = listSwap res.1 i j from listSwap_comm _ _ _]
        at hfalse
      by_cases hm : maximize = true
      · rw [if_pos hm] at hfalse
        rw [if_pos hm] at himp
        exact absurd himp (of_decide_eq_false hfalse)
      · rw [if_neg hm] at hfalse
        rw [if_neg hm] at himp
        exact absurd himp (of_decide_eq_false hfalse)
  by_cases hfree : pm.length = 0 ∧ pg.length = 0
  · rw [if_pos hfree] at hres
    rcases hloop : twoOptLoop n A B
        (fun x y => if maximize then decide (y < x) else decide (x < y))
        (pairsOf (List.range n)) fuel pr.1 (_calc_score n A B pr.1) 0
      with _ | res2
    · rw [hloop] at hres
      simp at hres
    · rw [hloop] at hres
      simp only [Except.ok.injEq, Option.some.injEq] at hres
      exact endgame (List.range n) (fun k hk _ => List.mem_range.2 hk) res2
        hloop hres.symm
  · rw [if_neg hfree] at hres
    rcases hloop : twoOptLoop n A B
        (fun x y => if maximize then decide (y < x) else decide (x < y))
        (pairsOf ((List.range n).filter fun i => i ∉ pm.map (·.1)))
        fuel pr.1 (_calc_score n A B pr.1) 0
      with _ | res2
    · rw [hloop] at hres
      simp at hres
    · rw [hloop] at hres
      simp only [Except.ok.injEq, Option.some.injEq] at hres
      refine endgame ((List.range n).filter fun i => i ∉ pm.map (·.1))
        (fun k hk hkf => List.mem_filter.2 ⟨List.mem_range.2 hk, ?_⟩) res2
        hloop hres.symm
      simpa using hkf

theorem twoopt_local_optimality_witness :
    _quadratic_assignment_2opt_body 2 (fun _ _ => 0) (fun _ _ => 0) false []
      ⟨0⟩ [] 3 = .ok (some ⟨[1, 0], 0, 3⟩) ∧
    (0 : ℚ) = _calc_score 2 (fun _ _ => 0) (fun _ _ => 0) [1, 0] ∧
    ¬ (if (false : Bool) then
        (0 : ℚ) < _calc_score 2 (fun _ _ => 0) (fun _ _ => 0)
          (listSwap [1, 0] 0 1)
       else
        _calc_score 2 (fun _ _ => 0) (fun _ _ => 0) (listSwap [1, 0] 0 1)
          < (0 : ℚ)) := by
  have h := twoopt_local_optimality 2 (fun _ _ => 0) (fun _ _ => 0) false [] []
    ⟨0⟩ 3 ⟨[1, 0], 0, 3⟩ (by decide!)
  exact ⟨by decide!, h.1, h.2 0 1 (by decide) (by decide) (by decide) (by decide)⟩

theorem getD_cons_eraseIdx (l : List ℕ) (i : ℕ) (h : i < l.length) :
    (l.getD i 0 :: l.eraseIdx i).Perm l := by
  induction l generalizing i with
  | nil => simp at h
  | cons a t ih =>
    cases i with
    | zero => exact List.Perm.refl _
    | succ i' =>
      have h' : i' < t.length := by simpa using h
      have h1 : (a :: t).getD (i' + 1) 0 :: (a :: t).eraseIdx (i' + 1) =
          t.getD i' 0 :: a :: t.eraseIdx i' := by
        simp [List.eraseIdx_cons_succ]
      rw [h1]
      exact (List.Perm.swap a (t.getD i' 0) (t.eraseIdx i')).trans ((ih i' h').cons a)

theorem allPermsAux_mem_perm : ∀ (k : ℕ) (l : List ℕ), l.length = k →
    ∀ p ∈ allPermsAux k l, p.Perm l := by
  intro k
  induction k with
  | zero =>
    intro l hl p hp
    simp only [allPermsAux, List.mem_singleton] at hp
    subst hp
    rw [List.length_eq_zero] at hl
    subst hl
    exact List.Perm.refl _
  | succ k ih =>
    intro l hl p hp
    simp only [allPermsAux, List.mem_flatten, List.mem_map] at hp
    obtain ⟨L, ⟨i, hi, rfl⟩, hpL⟩ := hp
    obtain ⟨q, hq, rfl⟩ := List.mem_map.mp hpL
    rw [List.mem_range] at hi
    have hlen : (l.eraseIdx i).length = k := by
      rw [List.length_eraseIdx_of_lt hi, hl]
      omega
    exact ((ih (l.eraseIdx i) hlen q hq).cons _).trans (getD_cons_eraseIdx l i hi)

theorem allPermsAux_ne_nil : ∀ (k : ℕ) (l : List ℕ), l.length = k →
    allPermsAux k l ≠ [] := by
  intro k
  induction k with
  | zero => intro l _; simp [allPermsAux]
  | succ k ih =>
    intro l hl h
    rw [allPermsAux, List.flatten_eq_nil_iff] at h
    have h0 : 0 < l.length := by omega
    have hlen : (l.eraseIdx 0).length = k := by
      rw [List.length_eraseIdx_of_lt h0, hl]
      omega
    have hmem : (allPermsAux k (l.eraseIdx 0)).map (l.getD 0 0 :: ·) ∈
        (List.range l.length).map fun i =>
          (allPermsAux k (l.eraseIdx i)).map (l.getD i 0 :: ·) :=
      List.mem_map.mpr ⟨0, List.mem_range.mpr h0, rfl⟩
    have hnil : allPermsAux k (l.eraseIdx 0) = [] := by
      simpa using h _ hmem
    exact ih _ hlen hnil

theorem foldl_mem_cons (f : List ℕ → List ℕ → List ℕ)
    (hf : ∀ a b, f a b = a ∨ f a b = b) :
    ∀ (l : List (List ℕ)) (a : List ℕ), l.foldl f a ∈ a :: l := by
  intro l
  induction l with
  | nil => intro a; simp
  | cons b t ih =>
    intro a
    rw [List.foldl_cons]
    rcases hf a b with h | h <;> rw [h]
    · rcases List.mem_cons.mp (ih a) with h1 | h1
      · exact List.mem_cons.mpr (Or.inl h1)
      · exact List.mem_cons.mpr (Or.inr (List.mem_cons.mpr (Or.inr h1)))
    · rcases List.mem_cons.mp (ih b) with h1 | h1
      · exact List.mem_cons.mpr (Or.inr (by rw [h1]; exact List.mem_cons_self b t))
      · exact List.mem_cons.mpr (Or.inr (List.mem_cons.mpr (Or.inr h1)))

theorem linear_sum_assignment_perm (k : ℕ) (C : Mtx) (mx : Bool) :
    (linear_sum_assignment k C mx).Perm (List.range k) := by
  unfold linear_sum_assignment
  rcases h : allPerms (List.range k) with _ | ⟨p0, rest⟩
  · exact absurd h (allPermsAux_ne_nil (List.range k).length (List.range k) rfl)
  · have hf : ∀ a b : List ℕ,
        (if mx then (if lapCost k C a ≤ lapCost k C b then b else a)
         else (if lapCost k C b ≤ lapCost k C a then b else a)) = a ∨
        (if mx then (if lapCost k C a ≤ lapCost k C b then b else a)
         else (if lapCost k C b ≤ lapCost k C a then b else a)) = b := by
      intro a b
      split
      · split
        · exact Or.inr rfl
        · exact Or.inl rfl
      · split
        · exact Or.inr rfl
        · exact Or.inl rfl
    have hmem := foldl_mem_cons _ hf rest p0
    rw [← h] at hmem
    exact allPermsAux_mem_perm (List.range k).length (List.range k) rfl _ hmem

theorem rngPermAux_perm : ∀ (k : ℕ) (l : List ℕ) (g : Rng), l.length = k →
    ((rngPermAux k l g).1).Perm l := by
  intro k
  induction k with
  | zero =>
    intro l _ hl
    rw [List.length_eq_zero] at hl
    subst hl
    exact List.Perm.refl _
  | succ k ih =>
    intro l g hl
    rw [rngPermAux]
    have hp : (rngBelow g l.length).1 < l.length := by
      simp only [rngBelow]
      exact Nat.mod_lt _ (by omega)
    have hlen : (l.eraseIdx (rngBelow g l.length).1).length = k := by
      rw [List.length_eraseIdx_of_lt hp, hl]
      omega
    exact ((ih _ _ hlen).cons _).trans (getD_cons_eraseIdx l _ hp)

theorem rngPermutation_perm (g : Rng) (l : List ℕ) :
    ((rngPermutation g l).1).Perm l :=
  rngPermAux_perm l.length l g rfl

theorem perm_cover (n : ℕ) (l : List ℕ) (hnd : l.Nodup)
    (hsub : ∀ x ∈ l, x < n) :
    (l ++ (List.range n).filter fun x => decide (x ∉ l)).Perm (List.range n) := by
  have h2 : l.Perm ((List.range n).filter fun x => decide (x ∈ l)) := by
    apply List.Subperm.antisymm
    · apply List.subperm_of_subset hnd
      intro x hx
      rw [List.mem_filter]
      exact ⟨List.mem_range.mpr (hsub x hx), by simpa using hx⟩
    · apply List.subperm_of_subset ((List.nodup_range n).filter _)
      intro x hx
      rw [List.mem_filter] at hx
      simpa using hx.2
  have h1 := List.filter_append_perm (fun x => decide (x ∈ l)) (List.range n)
  have h3 : (fun x => !decide (x ∈ l)) = fun x => decide (x ∉ l) := by
    funext x
    simp [decide_not]
  rw [h3] at h1
  exact (h2.append_right _).trans h1

theorem map_getD_range (l : List ℕ) :
    (List.range l.length).map (fun i => l.getD i 0) = l := by
  apply List.ext_getElem
  · simp
  · intro i h1 h2
    simp [List.getD_eq_getElem _ _ h2, List.getElem?_eq_getElem h2]

theorem foldl_set_length (ps : List (ℕ × ℕ)) : ∀ (b : List ℕ),
    (ps.foldl (fun acc iv => acc.set iv.1 iv.2) b).length = b.length := by
  induction ps with
  | nil => intro b; rfl
  | cons p t ih => intro b; rw [List.foldl_cons, ih, List.length_set]

theorem npScatter_length (base idx vals : List ℕ) :
    (npScatter base idx vals).length = base.length := foldl_set_length _ _

theorem foldl_set_untouched (ps : List (ℕ × ℕ)) : ∀ (b : List ℕ) (i : ℕ),
    (∀ p ∈ ps, p.1 ≠ i) →
    (ps.foldl (fun acc iv => acc.set iv.1 iv.2) b).getD i 0 = b.getD i 0 := by
  induction ps with
  | nil => intro b i _; rfl
  | cons p t ih =>
    intro b i hne
    rw [List.foldl_cons, ih _ _ (fun q hq => hne q (List.mem_cons_of_mem p hq))]
    by_cases hlt : i < b.length
    · rw [List.getD_eq_getElem _ _ (by simpa using hlt), List.getD_eq_getElem _ _ hlt]
      exact List.getElem_set_ne (hne p (List.mem_cons_self p t)) _
    · rw [List.getD_eq_default _ _ (by simpa using Nat.le_of_not_lt hlt),
        List.getD_eq_default _ _ (Nat.le_of_not_lt hlt)]

theorem npScatter_getD : ∀ (idx vals base : List ℕ) (k : ℕ),
    idx.Nodup → k < idx.length → k < vals.length → idx.getD k 0 < base.length →
    (npScatter base idx vals).getD (idx.getD k 0) 0 = vals.getD k 0 := by
  intro idx
  induction idx with
  | nil => intro vals base k _ hk _ _; simp at hk
  | cons a t ih =>
    intro vals base k hnd hk hkv hlt
    cases vals with
    | nil => simp at hkv
    | cons v vs =>
      have hunf : npScatter base (a :: t) (v :: vs) =
          (t.zip vs).foldl (fun acc iv => acc.set iv.1 iv.2) (base.set a v) := rfl
      cases k with
      | zero =>
        simp only [List.getD_cons_zero] at hlt ⊢
        rw [hunf, foldl_set_untouched _ _ _ ?hno]
        case hno =>
          intro q hq
          have := (List.of_mem_zip hq).1
          intro hcon
          rw [hcon] at this
          exact (List.nodup_cons.mp hnd).1 this
        rw [List.getD_eq_getElem _ _ (by simpa using hlt)]
        exact List.getElem_set_self _
      | succ k' =>
        simp only [List.getD_cons_succ] at hlt ⊢
        rw [hunf]
        exact ih vs (base.set a v) k' (List.nodup_cons.mp hnd).2
          (by simpa using hk) (by simpa using hkv) (by simpa using hlt)

theorem npScatter_perm (n : ℕ) (idx vals : List ℕ)
    (hidx : idx.Perm (List.range n)) (hlen : vals.length = n) :
    (npScatter (List.replicate n 0) idx vals).Perm vals := by
  have hnd : idx.Nodup := (List.Perm.nodup_iff hidx).mpr (List.nodup_range n)
  have hil : idx.length = n := by rw [hidx.length_eq, List.length_range]
  have hrl : (npScatter (List.replicate n 0) idx vals).length = n := by
    rw [npScatter_length, List.length_replicate]
  have hpoint : ∀ i, i < n →
      (npScatter (List.replicate n 0) idx vals).getD i 0 =
        vals.getD (idx.indexOf i) 0 := by
    intro i hi
    have himem : i ∈ idx := hidx.mem_iff.mpr (List.mem_range.mpr hi)
    have hidxlt : idx.indexOf i < idx.length := List.indexOf_lt_length.mpr himem
    have hgd : idx.getD (idx.indexOf i) 0 = i := by
      rw [List.getD_eq_getElem _ _ hidxlt]
      exact List.getElem_indexOf hidxlt
    have hmain := npScatter_getD idx vals (List.replicate n 0) (idx.indexOf i)
      hnd hidxlt (by omega) (by rw [hgd, List.length_replicate]; exact hi)
    rw [hgd] at hmain
    exact hmain
  have hmap : npScatter (List.replicate n 0) idx vals =
      (List.range n).map (fun i => vals.getD (idx.indexOf i) 0) := by
    apply List.ext_getElem
    · rw [hrl, List.length_map, List.length_range]
    · intro i hh1 hh2
      rw [List.getElem_map, List.getElem_range]
      rw [← List.getD_eq_getElem _ 0 hh1]
      exact hpoint i (by rwa [hrl] at hh1)
  have hidxmap : (idx.map fun a => idx.indexOf a) = List.range n := by
    apply List.ext_getElem
    · simp [hil]
    · intro i hh1 hh2
      simp only [List.getElem_map, List.getElem_range]
      exact List.indexOf_getElem hnd i (by simpa using hh1)
  have hrangemap : ((List.range n).map fun a => idx.indexOf a).Perm (List.range n) := by
    have hstep : ((List.range n).map fun a => idx.indexOf a).Perm
        (idx.map fun a => idx.indexOf a) := hidx.symm.map _
    rw [hidxmap] at hstep
    exact hstep
  rw [hmap]
  have hcomp : ((List.range n).map fun i => vals.getD (idx.indexOf i) 0) =
      ((List.range n).map fun a => idx.indexOf a).map (fun j => vals.getD j 0) := by
    rw [List.map_map]
    rfl
  rw [hcomp]
  have hfinal := hrangemap.map (fun j => vals.getD j 0)
  have hvals : (List.range n).map (fun j => vals.getD j 0) = vals := by
    have hmgr := map_getD_range vals
    rw [hlen] at hmgr
    exact hmgr
  rw [hvals] at hfinal
  exact hfinal

theorem pmOk_spec (n : ℕ) (pm : List (ℕ × ℕ)) (h : pmOk n pm = true) :
    pm.length ≤ n ∧ (∀ p ∈ pm, p.1 < n ∧ p.2 < n) ∧
    (pm.map Prod.fst).Nodup ∧ (pm.map Prod.snd).Nodup := by
  simp only [pmOk, Bool.and_eq_true, decide_eq_true_eq, List.all_eq_true] at h
  obtain ⟨⟨⟨h1, h2⟩, h3⟩, h4⟩ := h
  refine ⟨h1, ?_, h3, h4⟩
  intro p hp
  have hb := h2 p hp
  simp only [Bool.and_eq_true, decide_eq_true_eq] at hb
  exact hb

theorem sorted_bounded_eq_range (l : List ℕ) (n : ℕ)
    (hs : l.Sorted (· < ·)) (hsub : ∀ x ∈ l, x < n) (hlen : l.length = n) :
    l = List.range n := by
  have hnd : l.Nodup := hs.imp (fun h => Nat.ne_of_lt h)
  have hperm : l.Perm (List.range n) :=
    (List.subperm_of_subset hnd
      (fun x hx => List.mem_range.mpr (hsub x hx))).perm_of_length_le
      (by rw [List.length_range, hlen])
  exact List.eq_of_perm_of_sorted hperm hs (List.sorted_lt_range n)

theorem faq_main_props (n : ℕ) (pm : List (ℕ × ℕ)) (nonseedB col up : List ℕ)
    (hok : pmOk n pm = true) (hm : pm.length < n)
    (hnsB : nonseedB.Perm
      ((List.range n).filter fun x => decide (x ∉ pm.map Prod.snd)))
    (hcol : col.Perm (List.range (n - pm.length)))
    (hup : up = npScatter (List.replicate n 0)
      (pm.map Prod.fst ++ ((List.range n).filter fun x => decide (x ∉ pm.map Prod.fst)))
      ((List.range pm.length ++ col.map fun x => x + pm.length).map
        fun x => (pm.map Prod.snd ++ nonseedB).getD x 0)) :
    up.Perm (List.range n) ∧ ∀ p ∈ pm, up.getD p.1 0 = p.2 := by
  obtain ⟨hlen, hmem, hndf, hnds⟩ := pmOk_spec n pm hok
  have hfst_sub : ∀ x ∈ pm.map Prod.fst, x < n := by
    intro x hx
    obtain ⟨p, hp, rfl⟩ := List.mem_map.mp hx
    exact (hmem p hp).1
  have hsnd_sub : ∀ x ∈ pm.map Prod.snd, x < n := by
    intro x hx
    obtain ⟨p, hp, rfl⟩ := List.mem_map.mp hx
    exact (hmem p hp).2
  have hA : (pm.map Prod.fst ++
      ((List.range n).filter fun x => decide (x ∉ pm.map Prod.fst))).Perm
      (List.range n) := perm_cover n _ hndf hfst_sub
  have hAlen : (pm.map Prod.fst ++
      ((List.range n).filter fun x => decide (x ∉ pm.map Prod.fst))).length = n := by
    rw [hA.length_eq, List.length_range]
  have hB : (pm.map Prod.snd ++ nonseedB).Perm (List.range n) := by
    have h1 : (pm.map Prod.snd ++ nonseedB).Perm
        (pm.map Prod.snd ++
          ((List.range n).filter fun x => decide (x ∉ pm.map Prod.snd))) :=
      hnsB.append_left _
    exact h1.trans (perm_cover n _ hnds hsnd_sub)
  have hBlen : (pm.map Prod.snd ++ nonseedB).length = n := by
    rw [hB.length_eq, List.length_range]
  have hperm : (List.range pm.length ++ col.map fun x => x + pm.length).Perm
      (List.range n) := by
    have h1 : (col.map fun x => x + pm.length).Perm
        ((List.range (n - pm.length)).map fun x => x + pm.length) := hcol.map _
    have h2 : ((List.range (n - pm.length)).map fun x => x + pm.length) =
        (List.range (n - pm.length)).map fun x => pm.length + x := by
      apply List.map_congr_left
      intro x _
      omega
    have h3 : List.range pm.length ++
        (List.range (n - pm.length)).map (fun x => pm.length + x) =
        List.range n := by
      rw [← List.range_add]
      congr 1
      omega
    have h4 := h1.append_left (List.range pm.length)
    rw [h2, h3] at h4
    exact h4
  have hpermlen : (List.range pm.length ++ col.map fun x => x + pm.length).length = n := by
    rw [hperm.length_eq, List.length_range]
  have hvallen : ((List.range pm.length ++ col.map fun x => x + pm.length).map
      fun x => (pm.map Prod.snd ++ nonseedB).getD x 0).length = n := by
    rw [List.length_map, hpermlen]
  have hvals : ((List.range pm.length ++ col.map fun x => x + pm.length).map
      fun x => (pm.map Prod.snd ++ nonseedB).getD x 0).Perm
      (pm.map Prod.snd ++ nonseedB) := by
    have h1 := hperm.map (fun x => (pm.map Prod.snd ++ nonseedB).getD x 0)
    have h2 : (List.range n).map
        (fun x => (pm.map Prod.snd ++ nonseedB).getD x 0) =
        pm.map Prod.snd ++ nonseedB := by
      have h3 := map_getD_range (pm.map Prod.snd ++ nonseedB)
      rw [hBlen] at h3
      exact h3
    rw [h2] at h1
    exact h1
  subst hup
  refine ⟨(npScatter_perm n _ _ hA hvallen).trans (hvals.trans hB), ?_⟩
  intro p hp
  obtain ⟨k, hk, hpk⟩ := List.getElem_of_mem hp
  have hklen : k < (pm.map Prod.fst).length := by simpa using hk
  have hidxgd : (pm.map Prod.fst ++
      ((List.range n).filter fun x => decide (x ∉ pm.map Prod.fst))).getD k 0 = p.1 := by
    rw [List.getD_append _ _ _ _ hklen, List.getD_eq_getElem _ _ hklen,
      List.getElem_map]
    rw [hpk]
  have hndA : (pm.map Prod.fst ++
      ((List.range n).filter fun x => decide (x ∉ pm.map Prod.fst))).Nodup :=
    (List.Perm.nodup_iff hA).mpr (List.nodup_range n)
  have hmain := npScatter_getD _
    ((List.range pm.length ++ col.map fun x => x + pm.length).map
      fun x => (pm.map Prod.snd ++ nonseedB).getD x 0)
    (List.replicate n 0) k hndA
    (by rw [hAlen]; omega) (by rw [hvallen]; omega)
    (by rw [hidxgd, List.length_replicate]; exact (hmem p hp).1)
  rw [hidxgd] at hmain
  rw [hmain]
  have hkperm : k < (List.range pm.length ++ col.map fun x => x + pm.length).length := by
    rw [hpermlen]
    omega
  rw [List.getD_eq_getElem _ _ (by rw [hvallen]; omega), List.getElem_map,
    List.getElem_append_left (by simpa using hk), List.getElem_range]
  rw [List.getD_append _ _ _ _ (by simpa using hk),
    List.getD_eq_getElem _ _ (by simpa using hk), List.getElem_map]
  rw [hpk]

theorem nodup_bounded_len_perm_range (l : List ℕ) (n : ℕ) (hnd : l.Nodup)
    (hsub : ∀ x ∈ l, x < n) (hlen : l.length = n) : l.Perm (List.range n) :=
  (List.subperm_of_subset hnd
    (fun x hx => List.mem_range.mpr (hsub x hx))).perm_of_length_le
    (by rw [List.length_range, hlen])

/-- C1 (amended): every successful FAQ solve returns a `col_ind` that is a
full permutation of `{0, ..., n-1}` whose reported `fun` is the score of
exactly that permutation; the seed pairs are honored whenever the seed set is
not the degenerate fully-seeded case, or whenever the seed rows are given in
strictly increasing order.  (In the fully-seeded case with unsorted rows the
code returns `partial_match[:, 1]` as-is, ignoring the row order.) -/
theorem faq_result_invariants (n : ℕ) (A B : Mtx) (maximize : Bool)
    (pm : List (ℕ × ℕ)) (rng : Rng) (P0 : P0Choice) (shuffle_input : Bool)
    (maxiter : ℕ) (tol : ℚ) (r : QapResult)
    (hres : _quadratic_assignment_faq n A B maximize pm rng P0 shuffle_input
      maxiter tol = .ok r) :
    r.col_ind.Perm (List.range n) ∧
    r.fun' = _calc_score n A B r.col_ind ∧
    ((pm.length < n ∨ (pm.map Prod.fst).Sorted (· < ·)) →
      ∀ p ∈ pm, r.col_ind.getD p.1 0 = p.2) := by
  unfold _quadratic_assignment_faq at hres
  by_cases h1 : pmOk n pm = true
  case neg =>
    rw [if_pos h1] at hres
    exact Except.noConfusion hres
  rw [if_neg (not_not_intro h1)] at hres
  obtain ⟨hlen, hmem, hndf, hnds⟩ := pmOk_spec n pm h1
  have hfst_sub : ∀ x ∈ pm.map Prod.fst, x < n := by
    intro x hx
    obtain ⟨p, hp, rfl⟩ := List.mem_map.mp hx
    exact (hmem p hp).1
  have hsnd_sub : ∀ x ∈ pm.map Prod.snd, x < n := by
    intro x hx
    obtain ⟨p, hp, rfl⟩ := List.mem_map.mp hx
    exact (hmem p hp).2
  by_cases h2 : maxiter = 0
  case pos =>
    rw [if_pos h2] at hres
    exact Except.noConfusion hres
  case neg =>
  rw [if_neg h2] at hres
  by_cases h3 : tol ≤ 0
  case pos =>
    rw [if_pos h3] at hres
    exact Except.noConfusion hres
  rw [if_neg h3] at hres
  by_cases h4 : n = 0 ∨ pm.length = n
  case pos =>
    rw [if_pos h4] at hres
    have hr : (⟨pm.map (·.2), _calc_score n A B (pm.map (·.2)), 0⟩ : QapResult) = r :=
      Except.ok.inj hres
    subst hr
    rcases h4 with h4 | h4
    · have hpm : pm = [] := by
        subst h4
        exact List.length_eq_zero.mp (Nat.le_antisymm hlen (Nat.zero_le _))
      subst hpm
      subst h4
      exact ⟨List.Perm.refl _, rfl, fun _ p hp => absurd hp (List.not_mem_nil p)⟩
    · refine ⟨nodup_bounded_len_perm_range _ n hnds hsnd_sub (by simpa using h4),
        rfl, ?_⟩
      intro hseed p hp
      rcases hseed with hseed | hseed
      · omega
      · have hfst : pm.map Prod.fst = List.range n :=
          sorted_bounded_eq_range _ n hseed hfst_sub (by simpa using h4)
        obtain ⟨k, hk, hpk⟩ := List.getElem_of_mem hp
        have hk' : k < (pm.map Prod.fst).length := by simpa using hk
        have h5 : (pm.map Prod.fst).getD k 0 = p.1 := by
          rw [List.getD_eq_getElem _ _ hk', List.getElem_map, hpk]
        have h6 : (pm.map Prod.fst).getD k 0 = k := by
          rw [hfst, List.getD_eq_getElem _ _ (by simpa [← h4] using hk'),
            List.getElem_range]
        have hp1 : p.1 = k := by rw [← h5, h6]
        rw [hp1]
        have hk2 : k < (pm.map (·.2)).length := by simpa using hk
        rw [List.getD_eq_getElem _ _ hk2, List.getElem_map, hpk]
  case neg =>
  rw [if_neg h4] at hres
  have hm : pm.length < n := by
    push_neg at h4
    omega
  simp only [] at hres
  have hnsB : ((if shuffle_input then
      rngPermutation rng ((List.range n).filter fun x => decide (x ∉ pm.map Prod.snd))
      else ((List.range n).filter fun x => decide (x ∉ pm.map Prod.snd), rng)).1).Perm
      ((List.range n).filter fun x => decide (x ∉ pm.map Prod.snd)) := by
    by_cases hsh : shuffle_input = true
    · rw [if_pos hsh]
      exact rngPermutation_perm _ _
    · rw [if_neg hsh]
  split at hres
  · exact Except.noConfusion hres
  · have hr := Except.ok.inj hres
    subst hr
    exact ⟨(faq_main_props n pm _ _ _ h1 hm hnsB
        (linear_sum_assignment_perm _ _ false) rfl).1, rfl,
      fun _ => (faq_main_props n pm _ _ _ h1 hm hnsB
        (linear_sum_assignment_perm _ _ false) rfl).2⟩

/-- C1 counterexample: on a valid fully-seeded input whose seed rows are given
in the order `[(1, 0), (0, 1)]`, the FAQ solver returns `col_ind = [0, 1]`
(the raw second seed column), so the seed `(1, 0)` is not honored:
`col_ind[1] = 1 ≠ 0`.  The claimed unconditional seed invariant is false. -/
theorem faq_seed_counterexample :
    pmOk 2 [(1, 0), (0, 1)] = true ∧
    _quadratic_assignment_faq 2 (fun _ _ => 0) (fun _ _ => 0) false
      [(1, 0), (0, 1)] ⟨0⟩ .barycenter false 30 (3 / 100) =
      .ok ⟨[0, 1], 0, 0⟩ ∧
    ¬ ([0, 1].getD 1 0 = 0) :=
  ⟨by decide!, by decide!, by decide⟩

/-- Closed instance of `faq_result_invariants` at a seeded two-node input,
the solve-call hypothesis discharged by evaluation. -/
theorem faq_result_invariants_witness :
    ([1, 0] : List ℕ).Perm (List.range 2) ∧
    (0 : ℚ) = _calc_score 2 (fun _ _ => 0) (fun _ _ => 0) [1, 0] ∧
    (([(0, 1)] : List (ℕ × ℕ)).length < 2 ∨
        ([((0 : ℕ), (1 : ℕ))].map Prod.fst).Sorted (· < ·) →
      ∀ p ∈ [((0 : ℕ), (1 : ℕ))], [1, 0].getD p.1 0 = p.2) :=
  faq_result_invariants 2 (fun _ _ => 0) (fun _ _ => 0) false [(0, 1)] ⟨0⟩
    .barycenter false 30 (3 / 100) ⟨[1, 0], 0, 1⟩ (by decide!)

theorem fsum_succ (n : ℕ) (f : ℕ → ℚ) : fsum (n + 1) f = fsum n f + f n := by
  simp [fsum, List.range_succ]

theorem fsum_nine (f : ℕ → ℚ) :
    fsum 9 f = f 0 + f 1 + f 2 + f 3 + f 4 + f 5 + f 6 + f 7 + f 8 := by
  simp [fsum, List.range_succ]
  ring

theorem fsum_pos (n : ℕ) (f : ℕ → ℚ) (hn : 0 < n)
    (hf : ∀ i, i < n → 0 < f i) : 0 < fsum n f := by
  induction n with
  | zero => omega
  | succ n ih =>
    rw [fsum_succ]
    rcases Nat.eq_zero_or_pos n with h | h
    · subst h
      have : fsum 0 f = 0 := rfl
      rw [this, zero_add]
      exact hf 0 (by omega)
    · have h1 := ih h (fun i hi => hf i (by omega))
      have h2 := hf n (by omega)
      linarith

theorem pf_comm (t u : ℕ) : pf t u = pf u t := by
  simp [pf, and_comm]

theorem pf_left_zero (u : ℕ) : pf 0 u = 1 := by simp [pf]

theorem pf_right_zero (t : ℕ) : pf t 0 = 1 := by simp [pf]

theorem pf_two (u : ℕ) : pf 2 u = pf 1 u := by simp [pf]

theorem pv_profStep (g : ℚ × ℚ) (s : ℕ) : pv (profStep g) s = 1 / lsum g s := by
  rcases s with _ | s
  · simp [pv, profStep, lsum, pf]
  · simp [pv, profStep, lsum, pf]
    ring_nf

theorem fsumA (g : ℚ × ℚ) (j : ℕ) :
    fsum 9 (fun i => profVec g i * sinkP i j) = lsum g (j / 3) * lsum g (j % 3) := by
  rw [fsum_nine]
  simp only [profVec, sinkP, pv, lsum]
  norm_num [pf_left_zero, pf_two]
  ring

theorem pf_right_two (t : ℕ) : pf t 2 = pf t 1 := by simp [pf]

theorem pf_one_comm (t : ℕ) : pf t 1 = pf 1 t := pf_comm t 1

theorem fsumB (g : ℚ × ℚ) (i : ℕ) :
    fsum 9 (fun j => sinkP i j * profVec g j) = lsum g (i / 3) * lsum g (i % 3) := by
  rw [fsum_nine]
  simp only [profVec, sinkP, pv, lsum]
  norm_num [pf_right_zero]
  simp only [pf_right_two, pf_one_comm]
  ring

theorem sinkU1 (r : Vec) (g : ℚ × ℚ) (hr : r = profVec g) :
    (fun j => 1 / fsum 9 fun i => r i * sinkP i j) = profVec (profStep g) := by
  funext j
  rw [hr]
  rw [fsumA g j]
  rw [profVec, pv_profStep, pv_profStep]
  rw [div_mul_div_comm, one_mul]

theorem sinkU2 (c : Vec) (g : ℚ × ℚ) (hc : c = profVec g) :
    (fun i => 1 / fsum 9 fun j => sinkP i j * c j) = profVec (profStep g) := by
  funext i
  rw [hc]
  rw [fsumB g i]
  rw [profVec, pv_profStep, pv_profStep]
  rw [div_mul_div_comm, one_mul]

theorem sinkhornCheck_congr (k : ℕ) (P Q : Mtx) (tol : ℚ)
    (h : ∀ i j, P i j = Q i j) : sinkhornCheck k P tol = sinkhornCheck k Q tol := by
  have h1 : ∀ i, fsum k (fun j => P i j) = fsum k (fun j => Q i j) := by
    intro i
    exact fsum_congr (fun j => h i j)
  have h2 : ∀ j, fsum k (fun i => P i j) = fsum k (fun i => Q i j) := by
    intro j
    exact fsum_congr (fun i => h i j)
  simp only [sinkhornCheck]
  rw [show (fun i => decide (|fsum k (fun j => P i j) - 1| < tol)) =
      (fun i => decide (|fsum k (fun j => Q i j) - 1| < tol)) from
    funext fun i => by rw [h1 i]]
  rw [show (fun j => decide (|fsum k (fun i => P i j) - 1| < tol)) =
      (fun j => decide (|fsum k (fun i => Q i j) - 1| < tol)) from
    funext fun j => by rw [h2 j]]

theorem sinkhornLoop_step (k : ℕ) (P : Mtx) (tol : ℚ) (fuel : ℕ) (r c : Vec)
    (P_eps : Mtx) (hchk : sinkhornCheck k P_eps tol = false) :
    sinkhornLoop k P tol (fuel + 1) r c P_eps =
      sinkhornLoop k P tol fuel
        (fun i => 1 / fsum k fun j => P i j *
          (fun j => 1 / fsum k fun i => r i * P i j) j)
        (fun j => 1 / fsum k fun i => r i * P i j)
        (fun i j => (fun i => 1 / fsum k fun j => P i j *
            (fun j => 1 / fsum k fun i => r i * P i j) j) i * P i j *
          (fun j => 1 / fsum k fun i => r i * P i j) j) := by
  simp only [sinkhornLoop, hchk, Bool.false_eq_true, if_false]

theorem sinkhornLoop_form : ∀ (fuel : ℕ), 1 ≤ fuel → ∀ (t : ℕ) (r c : Vec)
    (P_eps : Mtx),
    r = profVec (profStep (sinkGamma t)) →
    sinkhornCheck 9 P_eps (1 / 1000) = false →
    (∀ s, t < s → s < t + fuel →
      sinkhornCheck 9 (profMtx (profStep (sinkGamma s)) (sinkGamma s))
        (1 / 1000) = false) →
    sinkhornLoop 9 sinkP (1 / 1000) fuel r c P_eps =
      profMtx (profStep (sinkGamma (t + fuel))) (sinkGamma (t + fuel)) := by
  intro fuel
  induction fuel with
  | zero => omega
  | succ fuel ih =>
    intro _ t r c P_eps hr hchk hfut
    rw [sinkhornLoop_step 9 sinkP (1 / 1000) fuel r c P_eps hchk]
    have hc' : (fun j => 1 / fsum 9 fun i => r i * sinkP i j) =
        profVec (sinkGamma (t + 1)) := by
      have h := sinkU1 r (profStep (sinkGamma t)) hr
      rw [show profStep (profStep (sinkGamma t)) = sinkGamma (t + 1) from rfl] at h
      exact h
    rw [hc']
    rw [sinkU2 (profVec (sinkGamma (t + 1))) (sinkGamma (t + 1)) rfl]
    rw [show (fun i j => profVec (profStep (sinkGamma (t + 1))) i * sinkP i j *
        profVec (sinkGamma (t + 1)) j) =
      profMtx (profStep (sinkGamma (t + 1))) (sinkGamma (t + 1)) from rfl]
    cases fuel with
    | zero =>
      rw [sinkhornLoop]
    | succ f =>
      have hchk1 : sinkhornCheck 9
          (profMtx (profStep (sinkGamma (t + 1))) (sinkGamma (t + 1)))
          (1 / 1000) = false :=
        hfut (t + 1) (by omega) (by omega)
      have hres := ih (by omega) (t + 1)
        (profVec (profStep (sinkGamma (t + 1)))) (profVec (sinkGamma (t + 1)))
        (profMtx (profStep (sinkGamma (t + 1))) (sinkGamma (t + 1))) rfl hchk1
        (fun s hs1 hs2 => hfut s (by omega) (by omega))
      rw [hres]
      rw [show t + 1 + (f + 1) = t + (f + 1 + 1) from by omega]

theorem vseq_pos : ∀ t, 0 < (vseq t).1 ∧ 0 < (vseq t).2 := by
  intro t
  induction t with
  | zero => constructor <;> norm_num [vseq, sinkCN]
  | succ t ih =>
    obtain ⟨h1, _⟩ := ih
    constructor
    · show 0 < ((vseq t).1 + 2 * sinkCN * (vseq t).2) +
        2 * sinkCN * ((vseq t).1 + 2 * (vseq t).2)
      have ha : 0 < (vseq t).1 + 2 * sinkCN * (vseq t).2 :=
        Nat.lt_of_lt_of_le h1 (Nat.le_add_right _ _)
      exact Nat.lt_of_lt_of_le ha (Nat.le_add_right _ _)
    · show 0 < ((vseq t).1 + 2 * sinkCN * (vseq t).2) +
        2 * ((vseq t).1 + 2 * (vseq t).2)
      have ha : 0 < (vseq t).1 + 2 * sinkCN * (vseq t).2 :=
        Nat.lt_of_lt_of_le h1 (Nat.le_add_right _ _)
      exact Nat.lt_of_lt_of_le ha (Nat.le_add_right _ _)

theorem cast_sinkCN : ((sinkCN : ℕ) : ℚ) = sinkC := by norm_num [sinkCN, sinkC]

theorem sinkC_pos : 0 < sinkC := by norm_num [sinkC]

theorem gamma_rep : ∀ t, ∃ lam : ℚ, 0 < lam ∧
    (sinkGamma t).1 = lam * ((vseq t).1 : ℚ) ∧
    (sinkGamma t).2 = lam * ((vseq t).2 : ℚ) := by
  intro t
  have hC := sinkC_pos
  induction t with
  | zero =>
    have hden : (0 : ℚ) < 1 + 2 * sinkC := by norm_num [sinkC]
    have hne : (1 : ℚ) + 2 * sinkC ≠ 0 := ne_of_gt hden
    refine ⟨1 / (3 * (1 + 2 * sinkC)), by norm_num [sinkC], ?_, ?_⟩
    · show 1 / ((1 : ℚ) + 2 * 1) = 1 / (3 * (1 + 2 * sinkC)) * ((vseq 0).1 : ℚ)
      rw [show ((vseq 0).1 : ℚ) = 1 + 2 * sinkC from by
        norm_num [vseq, cast_sinkCN]]
      rw [div_mul_eq_mul_div, one_mul,
        div_eq_div_iff (by norm_num) (by norm_num [sinkC])]
      ring
    · show 1 / ((1 : ℚ) + 2 * sinkC * 1) =
        1 / (3 * (1 + 2 * sinkC)) * ((vseq 0).2 : ℚ)
      rw [show ((vseq 0).2 : ℚ) = 3 from by norm_num [vseq]]
      rw [div_mul_eq_mul_div, one_mul,
        div_eq_div_iff (by norm_num [sinkC]) (by norm_num [sinkC])]
      ring
  | succ t ih =>
    obtain ⟨lam, hlam, h1, h2⟩ := ih
    obtain ⟨hv1, hv2⟩ := vseq_pos t
    have ha : (0 : ℚ) < ((vseq t).1 : ℚ) := by exact_mod_cast hv1
    have hb : (0 : ℚ) < ((vseq t).2 : ℚ) := by exact_mod_cast hv2
    have hL0 : (0 : ℚ) < ((vseq t).1 : ℚ) + 2 * ((vseq t).2 : ℚ) := by linarith
    have hL1 : (0 : ℚ) < ((vseq t).1 : ℚ) + 2 * sinkC * ((vseq t).2 : ℚ) := by
      nlinarith
    have hM1 : (0 : ℚ) < (((vseq t).1 : ℚ) + 2 * sinkC * ((vseq t).2 : ℚ)) +
        2 * sinkC * (((vseq t).1 : ℚ) + 2 * ((vseq t).2 : ℚ)) := by nlinarith
    have hM2 : (0 : ℚ) < (((vseq t).1 : ℚ) + 2 * sinkC * ((vseq t).2 : ℚ)) +
        2 * (((vseq t).1 : ℚ) + 2 * ((vseq t).2 : ℚ)) := by linarith
    have hcast1 : ((vseq (t + 1)).1 : ℚ) =
        (((vseq t).1 : ℚ) + 2 * sinkC * ((vseq t).2 : ℚ)) +
          2 * sinkC * (((vseq t).1 : ℚ) + 2 * ((vseq t).2 : ℚ)) := by
      show (((vseq t).1 + 2 * sinkCN * (vseq t).2) +
        2 * sinkCN * ((vseq t).1 + 2 * (vseq t).2) : ℕ) = (_ : ℚ)
      push_cast [cast_sinkCN]
      ring
    have hcast2 : ((vseq (t + 1)).2 : ℚ) =
        (((vseq t).1 : ℚ) + 2 * sinkC * ((vseq t).2 : ℚ)) +
          2 * (((vseq t).1 : ℚ) + 2 * ((vseq t).2 : ℚ)) := by
      show (((vseq t).1 + 2 * sinkCN * (vseq t).2) +
        2 * ((vseq t).1 + 2 * (vseq t).2) : ℕ) = (_ : ℚ)
      push_cast [cast_sinkCN]
      ring
    refine ⟨lam * ((((vseq t).1 : ℚ) + 2 * ((vseq t).2 : ℚ)) *
        (((vseq t).1 : ℚ) + 2 * sinkC * ((vseq t).2 : ℚ))) /
        (((((vseq t).1 : ℚ) + 2 * sinkC * ((vseq t).2 : ℚ)) +
            2 * sinkC * (((vseq t).1 : ℚ) + 2 * ((vseq t).2 : ℚ))) *
          ((((vseq t).1 : ℚ) + 2 * sinkC * ((vseq t).2 : ℚ)) +
            2 * (((vseq t).1 : ℚ) + 2 * ((vseq t).2 : ℚ)))), ?_, ?_, ?_⟩
    · exact div_pos (by positivity) (mul_pos hM1 hM2)
    · show (profStep (profStep (sinkGamma t))).1 = _
      rw [hcast1]
      simp only [profStep, h1, h2]
      have hX : lam * ((vseq t).1 : ℚ) + 2 * (lam * ((vseq t).2 : ℚ)) ≠ 0 :=
        ne_of_gt (by nlinarith [mul_pos hlam ha, mul_pos hlam hb])
      have hY : lam * ((vseq t).1 : ℚ) +
          2 * sinkC * (lam * ((vseq t).2 : ℚ)) ≠ 0 :=
        ne_of_gt (by nlinarith [mul_pos hlam ha, mul_pos (mul_pos hC hlam) hb])
      have hm1 : (((vseq t).1 : ℚ) + 2 * sinkC * ((vseq t).2 : ℚ)) +
          2 * sinkC * (((vseq t).1 : ℚ) + 2 * ((vseq t).2 : ℚ)) ≠ 0 :=
        ne_of_gt hM1
      have hm2 : (((vseq t).1 : ℚ) + 2 * sinkC * ((vseq t).2 : ℚ)) +
          2 * (((vseq t).1 : ℚ) + 2 * ((vseq t).2 : ℚ)) ≠ 0 := ne_of_gt hM2
      have hlamne : lam ≠ 0 := ne_of_gt hlam
      field_simp
      ring
    · show (profStep (profStep (sinkGamma t))).2 = _
      rw [hcast2]
      simp only [profStep, h1, h2]
      have hX : lam * ((vseq t).1 : ℚ) + 2 * (lam * ((vseq t).2 : ℚ)) ≠ 0 :=
        ne_of_gt (by nlinarith [mul_pos hlam ha, mul_pos hlam hb])
      have hY : lam * ((vseq t).1 : ℚ) +
          2 * sinkC * (lam * ((vseq t).2 : ℚ)) ≠ 0 :=
        ne_of_gt (by nlinarith [mul_pos hlam ha, mul_pos (mul_pos hC hlam) hb])
      have hm1 : (((vseq t).1 : ℚ) + 2 * sinkC * ((vseq t).2 : ℚ)) +
          2 * sinkC * (((vseq t).1 : ℚ) + 2 * ((vseq t).2 : ℚ)) ≠ 0 :=
        ne_of_gt hM1
      have hm2 : (((vseq t).1 : ℚ) + 2 * sinkC * ((vseq t).2 : ℚ)) +
          2 * (((vseq t).1 : ℚ) + 2 * ((vseq t).2 : ℚ)) ≠ 0 := ne_of_gt hM2
      have hlamne : lam ≠ 0 := ne_of_gt hlam
      field_simp
      ring

theorem colsum_zero (r c : ℚ × ℚ) :
    fsum 9 (fun i => profMtx r c i 0) = (c.1 * (r.1 + 2 * r.2)) ^ 2 := by
  rw [fsum_nine]
  simp only [profMtx, profVec, sinkP, pv]
  norm_num [pf_right_zero, pf_left_zero]
  ring

theorem ineq_bridge (N D : ℕ) (hD : 0 < D)
    (h : D ^ 2 < 1000 * (max (N ^ 2) (D ^ 2) - min (N ^ 2) (D ^ 2))) :
    1 / 1000 < |((N : ℚ) / (D : ℚ)) ^ 2 - 1| := by
  have hDq : (0 : ℚ) < (D : ℚ) := by exact_mod_cast hD
  have hD2 : (0 : ℚ) < (D : ℚ) ^ 2 := by positivity
  rcases le_total (N ^ 2) (D ^ 2) with hle | hle
  · rw [max_eq_right hle, min_eq_left hle] at h
    have hq : ((D : ℚ)) ^ 2 < 1000 * ((D : ℚ) ^ 2 - (N : ℚ) ^ 2) := by
      zify [hle] at h
      exact_mod_cast h
    have hx2 : ((N : ℚ) / (D : ℚ)) ^ 2 ≤ 1 := by
      rw [div_pow, div_le_one hD2]
      exact_mod_cast hle
    rw [abs_of_nonpos (by linarith)]
    have hfrac : (N : ℚ) ^ 2 / (D : ℚ) ^ 2 < 1 - 1 / 1000 := by
      rw [div_lt_iff hD2]
      nlinarith [hq]
    rw [div_pow]
    linarith [hfrac]
  · rw [max_eq_left hle, min_eq_right hle] at h
    have hq : ((D : ℚ)) ^ 2 < 1000 * ((N : ℚ) ^ 2 - (D : ℚ) ^ 2) := by
      zify [hle] at h
      exact_mod_cast h
    have hx2 : (1 : ℚ) ≤ ((N : ℚ) / (D : ℚ)) ^ 2 := by
      rw [div_pow, le_div_iff hD2, one_mul]
      exact_mod_cast hle
    rw [abs_of_nonneg (by linarith)]
    have hfrac : 1 + 1 / 1000 < (N : ℚ) ^ 2 / (D : ℚ) ^ 2 := by
      rw [lt_div_iff hD2]
      nlinarith [hq]
    rw [div_pow]
    linarith [hfrac]

theorem colsum_ratio (t : ℕ) :
    (sinkGamma t).1 * ((profStep (sinkGamma t)).1 +
        2 * (profStep (sinkGamma t)).2) =
      (((vseq t).1 * (((vseq t).1 + 2 * sinkCN * (vseq t).2) +
          2 * ((vseq t).1 + 2 * (vseq t).2)) : ℕ) : ℚ) /
      ((((vseq t).1 + 2 * (vseq t).2) *
          ((vseq t).1 + 2 * sinkCN * (vseq t).2) : ℕ) : ℚ) := by
  obtain ⟨lam, hlam, h1, h2⟩ := gamma_rep t
  obtain ⟨hv1, hv2⟩ := vseq_pos t
  have hC := sinkC_pos
  have ha : (0 : ℚ) < ((vseq t).1 : ℚ) := by exact_mod_cast hv1
  have hb : (0 : ℚ) < ((vseq t).2 : ℚ) := by exact_mod_cast hv2
  have hcastN : (((vseq t).1 * (((vseq t).1 + 2 * sinkCN * (vseq t).2) +
      2 * ((vseq t).1 + 2 * (vseq t).2)) : ℕ) : ℚ) =
      ((vseq t).1 : ℚ) * ((((vseq t).1 : ℚ) + 2 * sinkC * ((vseq t).2 : ℚ)) +
        2 * (((vseq t).1 : ℚ) + 2 * ((vseq t).2 : ℚ))) := by
    push_cast [cast_sinkCN]
    ring
  have hcastD : ((((vseq t).1 + 2 * (vseq t).2) *
      ((vseq t).1 + 2 * sinkCN * (vseq t).2) : ℕ) : ℚ) =
      (((vseq t).1 : ℚ) + 2 * ((vseq t).2 : ℚ)) *
        (((vseq t).1 : ℚ) + 2 * sinkC * ((vseq t).2 : ℚ)) := by
    push_cast [cast_sinkCN]
    ring
  rw [hcastN, hcastD]
  simp only [profStep, h1, h2]
  have hX : lam * ((vseq t).1 : ℚ) + 2 * (lam * ((vseq t).2 : ℚ)) ≠ 0 :=
    ne_of_gt (by nlinarith [mul_pos hlam ha, mul_pos hlam hb])
  have hY : lam * ((vseq t).1 : ℚ) +
      2 * sinkC * (lam * ((vseq t).2 : ℚ)) ≠ 0 :=
    ne_of_gt (by nlinarith [mul_pos hlam ha, mul_pos (mul_pos hC hlam) hb])
  have hL0 : ((vseq t).1 : ℚ) + 2 * ((vseq t).2 : ℚ) ≠ 0 :=
    ne_of_gt (by linarith)
  have hL1 : ((vseq t).1 : ℚ) + 2 * sinkC * ((vseq t).2 : ℚ) ≠ 0 :=
    ne_of_gt (by nlinarith)
  have hlamne : lam ≠ 0 := ne_of_gt hlam
  field_simp
  ring

theorem check_false_of_failCond (t : ℕ) (hf : failCondN (vseq t) = true) :
    sinkhornCheck 9 (profMtx (profStep (sinkGamma t)) (sinkGamma t))
      (1 / 1000) = false := by
  obtain ⟨hv1, hv2⟩ := vseq_pos t
  have hfp : ((((vseq t).1 + 2 * (vseq t).2) *
      ((vseq t).1 + 2 * sinkCN * (vseq t).2)) ^ 2 <
      1000 * (max (((vseq t).1 * (((vseq t).1 + 2 * sinkCN * (vseq t).2) +
          2 * ((vseq t).1 + 2 * (vseq t).2))) ^ 2)
        ((((vseq t).1 + 2 * (vseq t).2) *
          ((vseq t).1 + 2 * sinkCN * (vseq t).2)) ^ 2) -
        min (((vseq t).1 * (((vseq t).1 + 2 * sinkCN * (vseq t).2) +
          2 * ((vseq t).1 + 2 * (vseq t).2))) ^ 2)
        ((((vseq t).1 + 2 * (vseq t).2) *
          ((vseq t).1 + 2 * sinkCN * (vseq t).2)) ^ 2))) := by
    simp only [failCondN, decide_eq_true_eq] at hf
    exact hf
  have hD : 0 < ((vseq t).1 + 2 * (vseq t).2) *
      ((vseq t).1 + 2 * sinkCN * (vseq t).2) :=
    Nat.mul_pos (Nat.lt_of_lt_of_le hv1 (Nat.le_add_right _ _))
      (Nat.lt_of_lt_of_le hv1 (Nat.le_add_right _ _))
  have hbr := ineq_bridge _ _ hD hfp
  have hcol : 1 / 1000 <
      |fsum 9 (fun i => profMtx (profStep (sinkGamma t)) (sinkGamma t) i 0) - 1| := by
    rw [colsum_zero, colsum_ratio t, div_pow]
    rw [div_pow] at hbr
    exact hbr
  rw [sinkhornCheck]
  apply Bool.and_eq_false_iff.mpr
  right
  rw [List.all_eq_false]
  refine ⟨0, by norm_num, ?_⟩
  simp only [decide_eq_true_eq]
  exact not_lt.mpr (le_of_lt hcol)

theorem sinkFailAux_spec : ∀ (n t : ℕ), sinkFailAux n (vseq t) = true →
    ∀ s, t < s → s ≤ t + n → failCondN (vseq s) = true := by
  intro n
  induction n with
  | zero => intro t _ s h1 h2; omega
  | succ n ih =>
    intro t hall s h1 h2
    have hall' : failCondN (vstep (vseq t)) = true ∧
        sinkFailAux n (vstep (vseq t)) = true := by
      rw [sinkFailAux] at hall
      simpa using hall
    have hv : vstep (vseq t) = vseq (t + 1) := rfl
    rw [hv] at hall'
    rcases Nat.eq_or_lt_of_le (Nat.succ_le_of_lt h1) with heq | hlt
    · rw [← heq]
      exact hall'.1
    · exact ih (t + 1) hall'.2 s (by omega) (by omega)

theorem colsum_dev (t : ℕ) (hf : failCondN (vseq t) = true) :
    1 / 1000 < |fsum 9 (fun i => profMtx (profStep (sinkGamma t))
      (sinkGamma t) i 0) - 1| := by
  obtain ⟨hv1, hv2⟩ := vseq_pos t
  have hfp := hf
  simp only [failCondN, decide_eq_true_eq] at hfp
  have hD : 0 < ((vseq t).1 + 2 * (vseq t).2) *
      ((vseq t).1 + 2 * sinkCN * (vseq t).2) :=
    Nat.mul_pos (Nat.lt_of_lt_of_le hv1 (Nat.le_add_right _ _))
      (Nat.lt_of_lt_of_le hv1 (Nat.le_add_right _ _))
  have hbr := ineq_bridge _ _ hD hfp
  rw [colsum_zero, colsum_ratio t, div_pow]
  rw [div_pow] at hbr
  exact hbr

theorem sink_master : sinkFailAux 1000 (vseq 0) = true := by decide!

theorem sink_init_check : sinkhornCheck 9 sinkP (1 / 1000) = false := by decide!

theorem sink_init :
    _doubly_stochastic 9 sinkP (1 / 1000) =
      sinkhornLoop 9 sinkP (1 / 1000) 1000
        (profVec (profStep (sinkGamma 0))) (profVec (sinkGamma 0)) sinkP := by
  have hc : (fun j => 1 / fsum 9 fun i => sinkP i j) = profVec (sinkGamma 0) := by
    have h0 : (fun j => 1 / fsum 9 fun i => sinkP i j) =
        (fun j => 1 / fsum 9 fun i => profVec (1, 1) i * sinkP i j) := by
      funext j
      congr 1
      apply fsum_congr
      intro i
      rw [show profVec (1, 1) i = 1 from by simp [profVec, pv], one_mul]
    rw [h0]
    exact sinkU1 _ _ rfl
  have hcpt : ∀ j, 1 / (fsum 9 fun i => sinkP i j) = profVec (sinkGamma 0) j :=
    fun j => congrFun hc j
  rw [_doubly_stochastic]
  simp only []
  simp only [hcpt]
  rw [sinkU2 (profVec (sinkGamma 0)) (sinkGamma 0) rfl]

/-- C6 counterexample: the 9 × 9 strictly positive matrix `sinkP` (Kronecker
square of a block with entries `1` and `10^10`) defeats the balancer: every
one of the 1000 tolerance checks fails, the loop exhausts its iteration cap,
and column 0 of the returned matrix has sum farther than `1e-3` from 1.  The
claimed unconditional row/column tolerance of the output is false. -/
theorem sinkhorn_counterexample :
    (∀ i j, 0 < sinkP i j) ∧
    ¬ (|fsum 9 (fun i => _doubly_stochastic 9 sinkP (1 / 1000) i 0) - 1| ≤
      1 / 1000) := by
  constructor
  · intro i j
    have h1 : ∀ t u, 0 < pf t u := by
      intro t u
      rw [pf]
      split
      · exact sinkC_pos
      · norm_num
    exact mul_pos (h1 _ _) (h1 _ _)
  · have hfail : ∀ s, 0 < s → s ≤ 1000 → failCondN (vseq s) = true :=
      fun s h1 h2 => sinkFailAux_spec 1000 0 sink_master s h1 (by omega)
    have hform := sinkhornLoop_form 1000 (by norm_num) 0
      (profVec (profStep (sinkGamma 0))) (profVec (sinkGamma 0)) sinkP rfl
      sink_init_check
      (fun s hs1 hs2 => check_false_of_failCond s (hfail s hs1 (by omega)))
    rw [sink_init, hform]
    have hdev := colsum_dev 1000 (hfail 1000 (by norm_num) (by norm_num))
    rw [show (0 + 1000 : ℕ) = 1000 from by norm_num]
    intro hle
    linarith

theorem sinkhornR_shift (k : ℕ) (P : Mtx) (r : Vec) : ∀ m,
    sinkhornR k P ((sinkhornUpd k P r).2) m = sinkhornR k P r (m + 1) := by
  intro m
  induction m with
  | zero => rfl
  | succ m ih =>
    show (sinkhornUpd k P (sinkhornR k P ((sinkhornUpd k P r).2) m)).2 = _
    rw [ih]
    rfl

theorem sinkhornLoop_outcome : ∀ (fuel : ℕ) (k : ℕ) (P : Mtx) (tol : ℚ)
    (r c : Vec) (P_eps : Mtx),
    sinkhornCheck k (sinkhornLoop k P tol fuel r c P_eps) tol = true ∨
    (0 < fuel ∧ sinkhornLoop k P tol fuel r c P_eps =
      (sinkhornUpd k P (sinkhornR k P r (fuel - 1))).1) ∨
    (fuel = 0 ∧ sinkhornLoop k P tol fuel r c P_eps = P_eps) := by
  intro fuel
  induction fuel with
  | zero =>
    intro k P tol r c P_eps
    right; right
    exact ⟨rfl, rfl⟩
  | succ fuel ih =>
    intro k P tol r c P_eps
    rcases hchk : sinkhornCheck k P_eps tol with _ | _
    · rw [sinkhornLoop_step k P tol fuel r c P_eps hchk]
      rcases ih k P tol
        (fun i => 1 / fsum k fun j => P i j *
          (fun j => 1 / fsum k fun i => r i * P i j) j)
        (fun j => 1 / fsum k fun i => r i * P i j)
        (fun i j => (fun i => 1 / fsum k fun j => P i j *
            (fun j => 1 / fsum k fun i => r i * P i j) j) i * P i j *
          (fun j => 1 / fsum k fun i => r i * P i j) j) with h | ⟨hf, heq⟩ | ⟨hf0, heq⟩
      · left
        exact h
      · right; left
        refine ⟨by omega, ?_⟩
        rw [heq]
        have hlam : (fun i => 1 / fsum k fun j => P i j *
            (fun j => 1 / fsum k fun i => r i * P i j) j) =
            (sinkhornUpd k P r).2 := rfl
        rw [hlam, sinkhornR_shift]
        rw [show fuel - 1 + 1 = fuel + 1 - 1 from by omega]
      · right; left
        subst hf0
        refine ⟨by omega, ?_⟩
        rw [heq]
        rfl
    · have : sinkhornLoop k P tol (fuel + 1) r c P_eps = P_eps := by
        simp only [sinkhornLoop, hchk, if_true]
      left
      rw [this, hchk]

theorem sinkhornLoop_pos (k : ℕ) (P : Mtx) (tol : ℚ)
    (hP : ∀ i j, i < k → j < k → 0 < P i j) :
    ∀ (fuel : ℕ) (r c : Vec) (P_eps : Mtx),
    (∀ i, i < k → 0 < r i) → (∀ i j, i < k → j < k → 0 < P_eps i j) →
    ∀ i j, i < k → j < k → 0 < sinkhornLoop k P tol fuel r c P_eps i j := by
  intro fuel
  induction fuel with
  | zero =>
    intro r c P_eps _ hPe
    exact hPe
  | succ fuel ih =>
    intro r c P_eps hr hPe i j hi hj
    have hk : 0 < k := by omega
    rcases hchk : sinkhornCheck k P_eps tol with _ | _
    · rw [sinkhornLoop_step k P tol fuel r c P_eps hchk]
      have hc' : ∀ j, j < k → 0 < (fun j => 1 / fsum k fun i => r i * P i j) j := by
        intro j hj
        have hs : 0 < fsum k fun i => r i * P i j :=
          fsum_pos k _ hk (fun i hik => mul_pos (hr i hik) (hP i j hik hj))
        exact one_div_pos.mpr hs
      have hr' : ∀ i, i < k → 0 < (fun i => 1 / fsum k fun j => P i j *
          (fun j => 1 / fsum k fun i => r i * P i j) j) i := by
        intro i hik
        have hs : 0 < fsum k fun j => P i j *
            (fun j => 1 / fsum k fun i => r i * P i j) j :=
          fsum_pos k _ hk (fun j hjk => mul_pos (hP i j hik hjk) (hc' j hjk))
        exact one_div_pos.mpr hs
      exact ih _ _ _ hr'
        (fun i j hik hjk => mul_pos (mul_pos (hr' i hik) (hP i j hik hjk))
          (hc' j hjk)) i j hi hj
    · have hloop : sinkhornLoop k P tol (fuel + 1) r c P_eps = P_eps := by
        simp only [sinkhornLoop, hchk, if_true]
      rw [hloop]
      exact hPe i j hi hj

/-- C6 (amended): on a strictly positive square input the balancer's output
is strictly positive (in particular nonnegative), and the run either meets
the tolerance — the returned matrix passes the row/column sum check — or the
1000-iteration cap is exhausted and the returned matrix is exactly the
1000-th Sinkhorn iterate, whose sums may then still miss the tolerance. -/
theorem doubly_stochastic_invariants (k : ℕ) (P : Mtx) (tol : ℚ)
    (hP : ∀ i j, i < k → j < k → 0 < P i j) :
    (∀ i j, i < k → j < k → 0 < _doubly_stochastic k P tol i j) ∧
    (sinkhornCheck k (_doubly_stochastic k P tol) tol = true ∨
      _doubly_stochastic k P tol =
        (sinkhornUpd k P (sinkhornR k P (sinkhornInitR k P) 999)).1) := by
  have hunf : _doubly_stochastic k P tol =
      sinkhornLoop k P tol 1000 (sinkhornInitR k P)
        (fun j => 1 / fsum k fun i => P i j) P := rfl
  have hr0 : ∀ i, i < k → 0 < sinkhornInitR k P i := by
    intro i hik
    have hk : 0 < k := by omega
    have hc : ∀ j, j < k → 0 < (fun j => 1 / fsum k fun i => P i j) j :=
      fun j hjk =>
        one_div_pos.mpr (fsum_pos k _ hk (fun i hik2 => hP i j hik2 hjk))
    show 0 < 1 / fsum k fun j => P i j * (fun j => 1 / fsum k fun i => P i j) j
    exact one_div_pos.mpr (fsum_pos k _ hk
      (fun j hjk => mul_pos (hP i j hik hjk) (hc j hjk)))
  constructor
  · rw [hunf]
    exact sinkhornLoop_pos k P tol hP 1000 _ _ _ hr0 hP
  · rcases sinkhornLoop_outcome 1000 k P tol (sinkhornInitR k P)
      (fun j => 1 / fsum k fun i => P i j) P with h | ⟨_, heq⟩ | ⟨h0, _⟩
    · left
      rw [hunf]
      exact h
    · right
      rw [show (1000 - 1 : ℕ) = 999 from rfl] at heq
      rw [hunf, heq]
    · exact absurd h0 (by norm_num)

/-- Closed instance of `doubly_stochastic_invariants` at the all-ones 1 × 1
input, the positivity hypothesis discharged by evaluation. -/
theorem doubly_stochastic_invariants_witness :
    0 < _doubly_stochastic 1 (fun _ _ => 1) (1 / 1000) 0 0 ∧
    (sinkhornCheck 1 (_doubly_stochastic 1 (fun _ _ => 1) (1 / 1000))
        (1 / 1000) = true ∨
      _doubly_stochastic 1 (fun _ _ => 1) (1 / 1000) =
        (sinkhornUpd 1 (fun _ _ => 1)
          (sinkhornR 1 (fun _ _ => 1) (sinkhornInitR 1 (fun _ _ => 1)) 999)).1) := by
  have h := doubly_stochastic_invariants 1 (fun _ _ => 1) (1 / 1000)
    (fun i j _ _ => by norm_num)
  exact ⟨h.1 0 0 (by norm_num) (by norm_num), h.2⟩
